import Mathlib

/-!
# SvgToVectorCompose — a verified model of the core conversion pipeline

This file gives a shallow embedding, in Lean, of the core of the
SvgToVectorCompose converter:

* the SVG path-data command parser (`_parse_path_commands` in
  `converter/compose_generator.py`), including its tokenisation pipeline,
* the reserialisation of parsed commands (`_commands_to_path_string`) and the
  size-bounded splitting of oversized paths,
* colour normalisation and conversion (`svg_parser.py` / `compose_generator.py`),
* group opacity composition and per-path code emission,
* viewBox extraction, the XML-level path/group extraction, and the batch
  duplicate-identifier resolution of `main.py`.

Numbers are modelled as rationals: the Python code works with decimal
literals and two-decimal formatting, both of which are exact on `ℚ`.
-/

/-! ## Characters and decimal digits -/

/-- Whitespace characters of the Python regex class `\s` (ASCII). -/
def isWSChar (c : Char) : Bool :=
  c = ' ' || c = '\t' || c = '\n' || c = '\x0d' || c = '\x0b' || c = '\x0c'

/-- ASCII decimal digit. -/
def isDigitChar (c : Char) : Bool := '0' ≤ c && c ≤ '9'

/-- A `+` or `-` sign. -/
def isSignChar (c : Char) : Bool := c = '+' || c = '-'

/-- Numeric value of a decimal digit character. -/
def digitVal (c : Char) : Nat := c.toNat - 48

/-- Value of a string of decimal digit characters (most significant first). -/
def digitsVal (cs : List Char) : Nat := cs.foldl (fun a c => 10 * a + digitVal c) 0

/-- Decimal digit characters of a natural number, most significant first. -/
def natDecimal (n : Nat) : List Char :=
  if n = 0 then ['0'] else (Nat.digits 10 n).reverse.map (fun d => Char.ofNat (48 + d))

theorem digitVal_char (d : Nat) (hd : d < 10) : digitVal (Char.ofNat (48 + d)) = d := by
  interval_cases d <;> rfl

theorem isDigitChar_char (d : Nat) (hd : d < 10) : isDigitChar (Char.ofNat (48 + d)) = true := by
  interval_cases d <;> rfl

theorem natDecimal_all_digits (n : Nat) : ∀ c ∈ natDecimal n, isDigitChar c = true := by
  intro c hc
  unfold natDecimal at hc
  by_cases h : n = 0
  · simp [h] at hc; subst hc; rfl
  · simp [h, List.mem_map, List.mem_reverse] at hc
    obtain ⟨d, hd, rfl⟩ := hc
    exact isDigitChar_char d (Nat.digits_lt_base (by norm_num) hd)

theorem foldl_digits_reverse (L : List Nat) (hL : ∀ d ∈ L, d < 10) (acc : Nat) :
    (L.reverse.map (fun d => Char.ofNat (48 + d))).foldl (fun a c => 10 * a + digitVal c) acc
      = acc * 10 ^ L.length + Nat.ofDigits 10 L := by
  induction L generalizing acc with
  | nil => simp
  | cons d L ih =>
    have hd : d < 10 := hL d (by simp)
    have hL' : ∀ e ∈ L, e < 10 := fun e he => hL e (by simp [he])
    simp only [List.reverse_cons, List.map_append, List.foldl_append, List.map_cons,
      List.map_nil, List.foldl_cons, List.foldl_nil, ih hL']
    rw [digitVal_char d hd, Nat.ofDigits_cons]
    simp only [List.length_cons, pow_succ]
    ring

theorem digitsVal_natDecimal (n : Nat) : digitsVal (natDecimal n) = n := by
  unfold natDecimal digitsVal
  by_cases h : n = 0
  · simp [h]; rfl
  · simp only [h, if_false]
    rw [foldl_digits_reverse _ (fun d hd => Nat.digits_lt_base (by norm_num) hd) 0]
    simp [Nat.ofDigits_digits]

theorem natDecimal_ne_nil (n : Nat) : natDecimal n ≠ [] := by
  unfold natDecimal
  by_cases h : n = 0
  · simp [h]
  · simp only [h, if_false, ne_eq, List.map_eq_nil_iff, List.reverse_eq_nil_iff]
    exact Nat.digits_ne_nil_iff_ne_zero.mpr h

/-- Two right-padded decimal digits, as used for the fractional part of
two-decimal formatting. -/
def pad2 (n : Nat) : List Char := [Char.ofNat (48 + n / 10), Char.ofNat (48 + n % 10)]

theorem digitsVal_pad2 (n : Nat) (h : n < 100) : digitsVal (pad2 n) = n := by
  unfold pad2 digitsVal
  simp only [List.foldl_cons, List.foldl_nil]
  rw [digitVal_char (n / 10) (by omega), digitVal_char (n % 10) (by omega)]
  omega

theorem pad2_all_digits (n : Nat) (h : n < 100) : ∀ c ∈ pad2 n, isDigitChar c = true := by
  intro c hc
  simp only [pad2, List.mem_cons, List.mem_singleton, List.not_mem_nil, or_false] at hc
  rcases hc with h1 | h1
  · rw [h1]; exact isDigitChar_char _ (by omega)
  · rw [h1]; exact isDigitChar_char _ (by omega)

/-! ## Rounding and two-decimal formatting

Python's `f"{x:.2f}"` rounds the value to two fractional digits (nearest,
ties to even) and prints it with exactly two digits after the point. -/

/-- Round to the nearest integer, ties to even. -/
def rndHalfEven (x : ℚ) : ℤ :=
  if x - ⌊x⌋ < 1/2 then ⌊x⌋
  else if 1/2 < x - ⌊x⌋ then ⌊x⌋ + 1
  else if Even ⌊x⌋ then ⌊x⌋ else ⌊x⌋ + 1

/-- The integer `round(100·q)` underlying two-decimal formatting. -/
def rnd2 (q : ℚ) : ℤ := rndHalfEven (100 * q)

/-- The value printed by two-decimal formatting. -/
def round2 (q : ℚ) : ℚ := (rnd2 q : ℚ) / 100

/-- The character string printed by `f"{q:.2f}"`. -/
def fmt2 (q : ℚ) : List Char :=
  (if q < 0 then ['-'] else []) ++
    natDecimal ((rnd2 q).natAbs / 100) ++ '.' :: pad2 ((rnd2 q).natAbs % 100)

theorem rndHalfEven_sub_le (x : ℚ) : |(rndHalfEven x : ℚ) - x| ≤ 1/2 := by
  unfold rndHalfEven
  have h1 : (⌊x⌋ : ℚ) ≤ x := Int.floor_le x
  have h2 : x < ⌊x⌋ + 1 := Int.lt_floor_add_one x
  split
  · rw [abs_le]; constructor <;> push_cast <;> linarith
  · split
    · rw [abs_le]; constructor <;> push_cast <;> linarith
    · split <;> (rw [abs_le]; constructor <;> push_cast <;> linarith)

theorem round2_sub_le (q : ℚ) : |round2 q - q| ≤ 1/200 := by
  have h := rndHalfEven_sub_le (100 * q)
  unfold round2 rnd2
  have : (rndHalfEven (100 * q) : ℚ) / 100 - q = ((rndHalfEven (100 * q) : ℚ) - 100 * q) / 100 := by
    ring
  rw [this, abs_div]
  rw [show |(100 : ℚ)| = 100 by norm_num]
  linarith [div_le_div_of_nonneg_right (c := (100:ℚ)) h (by norm_num)]

theorem rndHalfEven_nonneg (x : ℚ) (hx : 0 ≤ x) : 0 ≤ rndHalfEven x := by
  unfold rndHalfEven
  have h0 : (0 : ℤ) ≤ ⌊x⌋ := Int.floor_nonneg.mpr hx
  split
  · exact h0
  · split
    · omega
    · split <;> omega

theorem rndHalfEven_nonpos (x : ℚ) (hx : x < 0) : rndHalfEven x ≤ 0 := by
  unfold rndHalfEven
  have h0 : ⌊x⌋ ≤ -1 := by
    have : ⌊x⌋ < 0 := Int.floor_lt.mpr (by simpa using hx)
    omega
  split
  · omega
  · split
    · omega
    · split <;> omega

/-! ## The Python float() conversion

`float(tok)` on the decimal literal tokens produced by the tokeniser:
optional sign, integer and/or fractional digits, optional exponent.
(Underscored literals and the inf/nan words are not modelled; path-data
tokens never contain them.) -/

/-- The sign factor of a float literal. -/
def pySign (cs : List Char) : ℚ := if cs.take 1 = ['-'] then -1 else 1

/-- The literal with a leading sign removed. -/
def pyUnsign (cs : List Char) : List Char :=
  if cs.take 1 = ['-'] ∨ cs.take 1 = ['+'] then cs.drop 1 else cs

/-- What follows the integer-part digits. -/
def pyAfterInt (cs0 : List Char) : List Char := cs0.drop (cs0.takeWhile isDigitChar).length

/-- The fractional digits (after a dot), if any. -/
def pyFracDigits (cs0 : List Char) : List Char :=
  match pyAfterInt cs0 with
  | '.' :: t => t.takeWhile isDigitChar
  | _ => []

/-- What follows the mantissa (a possible exponent part). -/
def pyExpTail (cs0 : List Char) : List Char :=
  match pyAfterInt cs0 with
  | '.' :: t => t.drop (t.takeWhile isDigitChar).length
  | _ => pyAfterInt cs0

/-- The exponent part: empty means the mantissa alone, otherwise `e`/`E`,
an optional sign and at least one digit, ending the literal. -/
def pyExpPart (mant : ℚ) (cs2 : List Char) : Option ℚ :=
  match cs2 with
  | [] => some mant
  | e :: t =>
    if e = 'e' ∨ e = 'E' then
      if (pyUnsign t).takeWhile isDigitChar = [] ∨
          (pyUnsign t).drop ((pyUnsign t).takeWhile isDigitChar).length ≠ [] then none
      else
        some (mant * (10 : ℚ) ^ ((if t.take 1 = ['-'] then (-1 : ℤ) else 1) *
          (digitsVal ((pyUnsign t).takeWhile isDigitChar) : ℤ)))
    else none

/-- Core of the `float()` model, on an already whitespace-stripped token:
optional sign, integer and/or fractional digits, optional exponent. -/
def pyFloatCore (cs : List Char) : Option ℚ :=
  if (pyUnsign cs).takeWhile isDigitChar = [] ∧ pyFracDigits (pyUnsign cs) = [] then none
  else
    pyExpPart
      (pySign cs *
        ((digitsVal ((pyUnsign cs).takeWhile isDigitChar) * 10 ^ (pyFracDigits (pyUnsign cs)).length +
            digitsVal (pyFracDigits (pyUnsign cs)) : ℕ) : ℚ) /
        10 ^ (pyFracDigits (pyUnsign cs)).length)
      (pyExpTail (pyUnsign cs))

/-! ## The tokenisation pipeline of _parse_path_commands -/

theorem length_dropWhile_le' (p : Char → Bool) (l : List Char) :
    (l.dropWhile p).length ≤ l.length := by
  induction l with
  | nil => simp
  | cons a t ih =>
    rw [List.dropWhile_cons]
    split
    · exact Nat.le_succ_of_le ih
    · simp

/-- Python `str.strip()`. -/
def pyStrip (cs : List Char) : List Char :=
  ((cs.dropWhile isWSChar).reverse.dropWhile isWSChar).reverse

/-- Model of Python `float()` on a token: surrounding whitespace is ignored,
then the decimal literal grammar applies.  Returns `none` where `float()`
raises `ValueError`. -/
def pyFloat? (cs : List Char) : Option ℚ := pyFloatCore (pyStrip cs)

/-- `re.sub(r'\s+', ' ', ·)`: collapse every whitespace run to one space. -/
def collapseWS (cs : List Char) : List Char :=
  match cs with
  | [] => []
  | c :: t =>
    if isWSChar c then ' ' :: collapseWS (t.dropWhile isWSChar)
    else c :: collapseWS t
termination_by cs.length
decreasing_by
  · simpa using Nat.lt_succ_of_le (length_dropWhile_le' isWSChar t)
  · simp

/-- `re.sub(r',', ' ', ·)` applied characterwise. -/
def commaToSpace (c : Char) : Char := if c = ',' then ' ' else c

/-- Length of the greedy match of the unsigned number pattern `\d*\.?\d+` at
the head of the list (backtracking semantics of the Python `re` module). -/
def numLenCore (cs0 : List Char) : Option Nat :=
  match cs0.drop (cs0.takeWhile isDigitChar).length with
  | '.' :: t =>
    if 0 < (t.takeWhile isDigitChar).length then
      some ((cs0.takeWhile isDigitChar).length + 1 + (t.takeWhile isDigitChar).length)
    else if 0 < (cs0.takeWhile isDigitChar).length then
      some (cs0.takeWhile isDigitChar).length
    else none
  | _ =>
    if 0 < (cs0.takeWhile isDigitChar).length then
      some (cs0.takeWhile isDigitChar).length
    else none

/-- Length of the greedy match of the number pattern `[+-]?\d*\.?\d+` at the
head of the list. -/
def numLen (cs : List Char) : Option Nat :=
  match cs with
  | c :: t => if isSignChar c then (numLenCore t).map (· + 1) else numLenCore (c :: t)
  | [] => none

/-- Leftmost match at the head of the list of the two-group pattern
`([+-]?\d*\.?\d+)([+-]\d*\.?\d+)` used to split concatenated numbers:
lengths of the two captured numbers. -/
def pairMatch (cs : List Char) : Option (Nat × Nat) :=
  match numLen cs with
  | none => none
  | some n1 =>
    match h : cs.drop n1 with
    | c :: _ =>
      if isSignChar c then
        match numLen (cs.drop n1) with
        | some n2 => some (n1, n2)
        | none => none
      else none
    | [] => none

theorem numLenCore_pos {cs : List Char} {n : Nat} (h : numLenCore cs = some n) : 1 ≤ n := by
  unfold numLenCore at h
  split at h
  · split at h
    · cases h; omega
    · split at h
      · cases h; omega
      · cases h
  · split at h
    · cases h; omega
    · cases h

theorem numLen_pos {cs : List Char} {n : Nat} (h : numLen cs = some n) : 1 ≤ n := by
  unfold numLen at h
  split at h
  · split at h
    · rw [Option.map_eq_some'] at h
      obtain ⟨m, _, rfl⟩ := h
      omega
    · exact numLenCore_pos h
  · cases h

theorem pairMatch_numLen {cs : List Char} {n1 n2 : Nat}
    (h : pairMatch cs = some (n1, n2)) : numLen cs = some n1 := by
  unfold pairMatch at h
  split at h
  · cases h
  · rename_i m hm
    split at h
    · split at h
      · split at h
        · cases h; exact hm
        · cases h
      · cases h
    · cases h

/-- `re.sub` with the concatenated-number pattern: scan left to right, and
after each replacement continue after the full match. -/
def splitConcat (cs : List Char) : List Char :=
  match cs with
  | [] => []
  | c :: t =>
    match hm : pairMatch (c :: t) with
    | some (n1, n2) =>
      (c :: t).take n1 ++ ' ' :: ((c :: t).drop n1).take n2 ++ splitConcat ((c :: t).drop (n1 + n2))
    | none => c :: splitConcat t
termination_by cs.length
decreasing_by
  · have h1 : 1 ≤ n1 := numLen_pos (pairMatch_numLen hm)
    simp only [List.length_drop, List.length_cons]
    omega
  · simp

/-- The set of SVG path command letters. -/
def isCmdLetter (c : Char) : Bool :=
  c = 'M' || c = 'm' || c = 'L' || c = 'l' || c = 'H' || c = 'h' || c = 'V' || c = 'v' ||
  c = 'C' || c = 'c' || c = 'S' || c = 's' || c = 'Q' || c = 'q' || c = 'T' || c = 't' ||
  c = 'A' || c = 'a' || c = 'Z' || c = 'z'

/-- `re.sub(r'([MmLlHhVvCcSsQqTtAaZz])', r' \1 ', ·)` on one character. -/
def expandLetter (c : Char) : List Char := if isCmdLetter c then [' ', c, ' '] else [c]

/-- `str.split()`: the maximal whitespace-free words of a string. -/
def words (cs : List Char) : List (List Char) :=
  match cs with
  | [] => []
  | c :: t =>
    if isWSChar c then words t
    else (c :: t.takeWhile (fun d => !isWSChar d)) :: words (t.dropWhile (fun d => !isWSChar d))
termination_by cs.length
decreasing_by
  · simp
  · simpa using Nat.lt_succ_of_le (length_dropWhile_le' (fun d => !isWSChar d) t)

/-- The token list produced by the normalisation pipeline at the start of
`_parse_path_commands`: whitespace collapse, comma replacement, splitting of
concatenated signed numbers, isolation of command letters, final split. -/
def tokenizeChars (s : List Char) : List (List Char) :=
  words (collapseWS (pyStrip ((splitConcat ((collapseWS (pyStrip s)).map commaToSpace)).flatMap expandLetter)))

/-- Python `str.islower()`: at least one cased character and no uppercase one
(ASCII model). -/
def pyIslower (cs : List Char) : Bool :=
  cs.any (fun c => c.isLower) && cs.all (fun c => !c.isUpper)

/-! ## Parsed drawing commands and the parsing loop -/

/-- A parsed drawing command, mirroring the dicts built by
`_parse_path_commands`: `M`/`L`/`C` carry resolved absolute coordinates,
`H`/`V` carry the raw operand together with the author's relative flag,
`Z` is bare.  (The source never constructs `S`/`Q`/`T`/`A` records: those
letters fall into the unknown-command branch of the loop.) -/
inductive PathCmd where
  | moveTo (x y : ℚ)
  | lineTo (x y : ℚ)
  | hline (x : ℚ) (rel : Bool)
  | vline (y : ℚ) (rel : Bool)
  | curveTo (x1 y1 x2 y2 x y : ℚ)
  | close
deriving DecidableEq, Repr

/-- The token-consuming loop of `_parse_path_commands`, with the current
point `(cx, cy)` threaded through.  The Python loop dispatches on
`cmd = tokens[i].upper()` with `is_relative = tokens[i].islower()`; since
every comparison is against a single letter, the dispatch is equivalent to
matching the token against the two one-character spellings of each letter,
with the relative flag inlined.  Each branch mirrors one arm of the
`while` loop: on a float conversion error the command's operand slots are
still consumed; when too few operand tokens remain the loop falls through
to the next token; unknown tokens are skipped. -/
def parseTokens : ℚ → ℚ → List (List Char) → List PathCmd
  | _, _, [] => []
  | cx, cy, ['M'] :: t1 :: t2 :: rest =>
    (match pyFloat? t1, pyFloat? t2 with
     | some x0, some y0 => PathCmd.moveTo x0 y0 :: parseTokens x0 y0 rest
     | _, _ => parseTokens cx cy rest)
  | cx, cy, ['m'] :: t1 :: t2 :: rest =>
    (match pyFloat? t1, pyFloat? t2 with
     | some x0, some y0 =>
       PathCmd.moveTo (x0 + cx) (y0 + cy) :: parseTokens (x0 + cx) (y0 + cy) rest
     | _, _ => parseTokens cx cy rest)
  | cx, cy, ['L'] :: t1 :: t2 :: rest =>
    (match pyFloat? t1, pyFloat? t2 with
     | some x0, some y0 => PathCmd.lineTo x0 y0 :: parseTokens x0 y0 rest
     | _, _ => parseTokens cx cy rest)
  | cx, cy, ['l'] :: t1 :: t2 :: rest =>
    (match pyFloat? t1, pyFloat? t2 with
     | some x0, some y0 =>
       PathCmd.lineTo (x0 + cx) (y0 + cy) :: parseTokens (x0 + cx) (y0 + cy) rest
     | _, _ => parseTokens cx cy rest)
  | cx, cy, ['H'] :: t1 :: rest =>
    (match pyFloat? t1 with
     | some x0 => PathCmd.hline x0 false :: parseTokens x0 cy rest
     | none => parseTokens cx cy rest)
  | cx, cy, ['h'] :: t1 :: rest =>
    (match pyFloat? t1 with
     | some x0 => PathCmd.hline x0 true :: parseTokens (cx + x0) cy rest
     | none => parseTokens cx cy rest)
  | cx, cy, ['V'] :: t1 :: rest =>
    (match pyFloat? t1 with
     | some y0 => PathCmd.vline y0 false :: parseTokens cx y0 rest
     | none => parseTokens cx cy rest)
  | cx, cy, ['v'] :: t1 :: rest =>
    (match pyFloat? t1 with
     | some y0 => PathCmd.vline y0 true :: parseTokens cx (cy + y0) rest
     | none => parseTokens cx cy rest)
  | cx, cy, ['C'] :: t1 :: t2 :: t3 :: t4 :: t5 :: t6 :: rest =>
    (match pyFloat? t1, pyFloat? t2, pyFloat? t3, pyFloat? t4, pyFloat? t5, pyFloat? t6 with
     | some x1, some y1, some x2, some y2, some x0, some y0 =>
       PathCmd.curveTo x1 y1 x2 y2 x0 y0 :: parseTokens x0 y0 rest
     | _, _, _, _, _, _ => parseTokens cx cy rest)
  | cx, cy, ['c'] :: t1 :: t2 :: t3 :: t4 :: t5 :: t6 :: rest =>
    (match pyFloat? t1, pyFloat? t2, pyFloat? t3, pyFloat? t4, pyFloat? t5, pyFloat? t6 with
     | some x1, some y1, some x2, some y2, some x0, some y0 =>
       PathCmd.curveTo (x1 + cx) (y1 + cy) (x2 + cx) (y2 + cy) (x0 + cx) (y0 + cy) ::
         parseTokens (x0 + cx) (y0 + cy) rest
     | _, _, _, _, _, _ => parseTokens cx cy rest)
  | cx, cy, ['Z'] :: rest => PathCmd.close :: parseTokens cx cy rest
  | cx, cy, ['z'] :: rest => PathCmd.close :: parseTokens cx cy rest
  | cx, cy, _ :: rest => parseTokens cx cy rest

/-- `_parse_path_commands`: tokenise, then run the command loop from the
origin. -/
def parsePathCommands (s : String) : List PathCmd :=
  parseTokens 0 0 (tokenizeChars s.data)

/-! ## _commands_to_path_string -/

/-- The path-data text emitted for one command by
`_commands_to_path_string` (two-decimal formatting throughout; the `H`/`V`
parts print the stored operand with the absolute letter, dropping the
relative flag). -/
def cmdPart : PathCmd → List Char
  | PathCmd.moveTo x y => 'M' :: ' ' :: (fmt2 x ++ ',' :: fmt2 y)
  | PathCmd.lineTo x y => 'L' :: ' ' :: (fmt2 x ++ ',' :: fmt2 y)
  | PathCmd.hline x _ => 'H' :: ' ' :: fmt2 x
  | PathCmd.vline y _ => 'V' :: ' ' :: fmt2 y
  | PathCmd.curveTo x1 y1 x2 y2 x y =>
      'C' :: ' ' :: (fmt2 x1 ++ ',' :: fmt2 y1 ++ ' ' :: fmt2 x2 ++ ',' :: fmt2 y2 ++
        ' ' :: fmt2 x ++ ',' :: fmt2 y)
  | PathCmd.close => ['Z']

/-- `sep.join(parts)`. -/
def joinSep (sep : Char) : List (List Char) → List Char
  | [] => []
  | [x] => x
  | x :: y :: t => x ++ sep :: joinSep sep (y :: t)

/-- `_commands_to_path_string`: reserialise a command list to path-data
text. -/
def commandsToPathString (cmds : List PathCmd) : String :=
  String.mk (joinSep ' ' (cmds.map cmdPart))

/-! ## _format_path_data: emission of drawing instructions -/

/-- The character string printed by `f"{q:.0f}"` (round to integer, ties to
even). -/
def fmt0 (q : ℚ) : List Char :=
  (if q < 0 then ['-'] else []) ++ natDecimal (rndHalfEven q).natAbs

/-- `"    " * n`. -/
def indentStr (n : Nat) : String := String.mk (List.replicate (4 * n) ' ')

/-- The Compose drawing instruction emitted by `_format_path_data` for one
parsed command (without the indentation prefix).  `M`/`L`/`H`/`V` print with
`:.0f`, `C` with `:.2f`; the `H`/`V` relative flag picks the
`...Relative` instruction. -/
def emitCmd : PathCmd → String
  | PathCmd.moveTo x y =>
      "moveTo(" ++ String.mk (fmt0 x) ++ "f, " ++ String.mk (fmt0 y) ++ "f)"
  | PathCmd.lineTo x y =>
      "lineTo(" ++ String.mk (fmt0 x) ++ "f, " ++ String.mk (fmt0 y) ++ "f)"
  | PathCmd.hline x rel =>
      if rel then "horizontalLineToRelative(" ++ String.mk (fmt0 x) ++ "f)"
      else "horizontalLineTo(" ++ String.mk (fmt0 x) ++ "f)"
  | PathCmd.vline y rel =>
      if rel then "verticalLineToRelative(" ++ String.mk (fmt0 y) ++ "f)"
      else "verticalLineTo(" ++ String.mk (fmt0 y) ++ "f)"
  | PathCmd.curveTo x1 y1 x2 y2 x y =>
      "curveTo(" ++ String.mk (fmt2 x1) ++ "f, " ++ String.mk (fmt2 y1) ++ "f, " ++
        String.mk (fmt2 x2) ++ "f, " ++ String.mk (fmt2 y2) ++ "f, " ++
        String.mk (fmt2 x) ++ "f, " ++ String.mk (fmt2 y) ++ "f)"
  | PathCmd.close => "close()"

/-- `_format_path_data`: parse the path-data string and emit one indented
drawing instruction per command. -/
def formatPathData (d : String) (indentLevel : Nat) : List String :=
  (parsePathCommands d).map (fun c => indentStr indentLevel ++ emitCmd c)

/-- The value a command round-trips to under reserialisation followed by
re-parsing: every coordinate is rounded to two decimals and the `H`/`V`
relative flag is reset to absolute. -/
def normCmd : PathCmd → PathCmd
  | PathCmd.moveTo x y => PathCmd.moveTo (round2 x) (round2 y)
  | PathCmd.lineTo x y => PathCmd.lineTo (round2 x) (round2 y)
  | PathCmd.hline x _ => PathCmd.hline (round2 x) false
  | PathCmd.vline y _ => PathCmd.vline (round2 y) false
  | PathCmd.curveTo x1 y1 x2 y2 x y =>
      PathCmd.curveTo (round2 x1) (round2 y1) (round2 x2) (round2 y2) (round2 x) (round2 y)
  | PathCmd.close => PathCmd.close

/-- The command letter of a parsed command. -/
def cmdType : PathCmd → String
  | PathCmd.moveTo _ _ => "M"
  | PathCmd.lineTo _ _ => "L"
  | PathCmd.hline _ _ => "H"
  | PathCmd.vline _ _ => "V"
  | PathCmd.curveTo _ _ _ _ _ _ => "C"
  | PathCmd.close => "Z"


/-! ## Colour normalisation (svg_parser.PathData._normalize_color) -/

/-- ASCII `str.lower()`. -/
def lowerStr (s : String) : String := String.mk (s.data.map Char.toLower)

/-- ASCII `str.upper()`. -/
def upperStr (s : String) : String := String.mk (s.data.map Char.toUpper)

/-- The named-colour table of `_normalize_color`. -/
def namedColorHex? (s : String) : Option String :=
  if s = "black" then some "#000000"
  else if s = "white" then some "#ffffff"
  else if s = "red" then some "#ff0000"
  else if s = "green" then some "#008000"
  else if s = "blue" then some "#0000ff"
  else if s = "transparent" then some "none"
  else none

/-- Uppercase hexadecimal digit. -/
def hexDigit (n : Nat) : Char := if n < 10 then Char.ofNat (48 + n) else Char.ofNat (55 + n)

/-- Uppercase hexadecimal digits of a natural number. -/
def natHex (n : Nat) : List Char :=
  if n = 0 then ['0'] else (Nat.digits 16 n).reverse.map hexDigit

/-- `format(n, '02X')`: uppercase hexadecimal, left-padded to two digits. -/
def hexPad2 (n : Nat) : String :=
  String.mk (if (natHex n).length < 2 then List.replicate (2 - (natHex n).length) '0' ++ natHex n else natHex n)

/-- The part of the `rgb()` pattern after the opening parenthesis:
`(\d+),\s*(\d+),\s*(\d+)(?:,\s*[\d.]+)?\)` (trailing text is ignored, as
`re.match` only anchors the start). -/
def rgbAfterParen (cs : List Char) : Option (Nat × Nat × Nat) :=
  let d1 := cs.takeWhile isDigitChar
  if d1.length = 0 then none else
  match cs.drop d1.length with
  | ',' :: r1 =>
    let r1b := r1.dropWhile isWSChar
    let d2 := r1b.takeWhile isDigitChar
    if d2.length = 0 then none else
    match r1b.drop d2.length with
    | ',' :: r2 =>
      let r2b := r2.dropWhile isWSChar
      let d3 := r2b.takeWhile isDigitChar
      if d3.length = 0 then none else
      (match r2b.drop d3.length with
      | ')' :: _ => some (digitsVal d1, digitsVal d2, digitsVal d3)
      | ',' :: r3 =>
        let r3b := r3.dropWhile isWSChar
        let a := r3b.takeWhile (fun c => isDigitChar c || c = '.')
        if a.length = 0 then none else
        (match r3b.drop a.length with
        | ')' :: _ => some (digitsVal d1, digitsVal d2, digitsVal d3)
        | _ => none)
      | _ => none)
    | _ => none
  | _ => none

/-- `re.match(r'rgba?\((\d+),\s*(\d+),\s*(\d+)(?:,\s*[\d.]+)?\)', color)`. -/
def rgbMatch? (cs : List Char) : Option (Nat × Nat × Nat) :=
  match cs with
  | 'r' :: 'g' :: 'b' :: 'a' :: '(' :: t => rgbAfterParen t
  | 'r' :: 'g' :: 'b' :: '(' :: t => rgbAfterParen t
  | _ => none

/-- `PathData._normalize_color`: empty/none-like strings map to `"none"`,
the six named colours map to their table entries, `#`-prefixed strings are
uppercased (3-digit hex is *not* expanded here), `rgb()`/`rgba()` convert to
`#RRGGBB` discarding alpha, and anything else is returned unchanged. -/
def normalizeColor (color : String) : String :=
  if color = "" ∨ lowerStr color = "none" then "none"
  else
    match namedColorHex? (lowerStr color) with
    | some h => h
    | none =>
      if color.data.take 1 = ['#'] then upperStr color
      else
        match rgbMatch? color.data with
        | some (r, g, b) => "#" ++ hexPad2 r ++ hexPad2 g ++ hexPad2 b
        | none => color

/-! ## Colour conversion to Compose (compose_generator) -/

/-- `_convert_color_to_compose`; `none` models the Python `None` result.
A `#`-string of length 7 becomes `Color(0xFF......)` with the hex digits
uppercased; one of length 4 duplicates each nibble *without* changing case;
other `#`-lengths fall through to the named colours and then to the
black default with a logged warning. -/
def convertColorToCompose (color : String) : Option String :=
  if color = "" ∨ lowerStr color = "none" then none
  else if color.data.take 1 = ['#'] ∧ color.length = 7 then
    some ("Color(0xFF" ++ upperStr (String.mk (color.data.drop 1)) ++ ")")
  else if color.data.take 1 = ['#'] ∧ color.length = 4 then
    match color.data with
    | _ :: r :: g :: b :: _ => some ("Color(0xFF" ++ String.mk [r, r, g, g, b, b] ++ ")")
    | _ => some "Color.Black"
  else if lowerStr color = "black" then some "Color.Black"
  else if lowerStr color = "white" then some "Color.White"
  else if lowerStr color = "red" then some "Color.Red"
  else if lowerStr color = "green" then some "Color.Green"
  else if lowerStr color = "blue" then some "Color.Blue"
  else if lowerStr color = "transparent" then some "Color.Transparent"
  else some "Color.Black"

/-- The character string printed by `f"{q:.1f}"`. -/
def fmt1 (q : ℚ) : List Char :=
  (if q < 0 then ['-'] else []) ++
    natDecimal ((rndHalfEven (10 * q)).natAbs / 10) ++
      ['.', Char.ofNat (48 + (rndHalfEven (10 * q)).natAbs % 10)]

/-- `_convert_color_to_compose_with_opacity`.  (For opacity < 1 the alpha
byte is `int(opacity * 255)`; the Python truncation towards zero agrees with
the floor used here on the non-negative opacities that occur.) -/
def convertColorToComposeWithOpacity (color : String) (opacity : ℚ) : Option String :=
  if color = "" ∨ lowerStr color = "none" then none
  else
    match convertColorToCompose color with
    | none => none
    | some base =>
      if 1 ≤ opacity then some base
      else if base.data.take 10 = ("Color(0xFF").data then
        some ("Color(0x" ++ hexPad2 (Int.toNat ⌊opacity * 255⌋) ++
          String.mk ((base.data.drop 10).dropLast) ++ ")")
      else
        some (base ++ ".copy(alpha = " ++ String.mk (fmt2 opacity) ++ "f)")

/-! ## Shape values (svg_parser dataclasses) -/

/-- `PathData` after `__post_init__` colour normalisation.  `fillOpacity`
and `strokeOpacity` model the dynamic attributes read through
`getattr(path_data, 'fill_opacity', 1.0)`: a path fresh from the parser has
both equal to 1. -/
structure PathData where
  d : String
  fill : String
  stroke : String
  strokeWidth : ℚ
  fillRule : String
  opacity : ℚ
  transform : Option String
  fillOpacity : ℚ
  strokeOpacity : ℚ
deriving DecidableEq, Repr

/-- The `PathData(...)` constructor including `__post_init__`, which
normalises the two colours. -/
def mkPathData (d fill stroke : String) (strokeWidth : ℚ) (fillRule : String)
    (opacity : ℚ) (transform : Option String) : PathData :=
  { d := d, fill := normalizeColor fill, stroke := normalizeColor stroke,
    strokeWidth := strokeWidth, fillRule := fillRule, opacity := opacity,
    transform := transform, fillOpacity := 1, strokeOpacity := 1 }

/-- `GroupData` (its parser-built children are always paths). -/
structure GroupData where
  transform : Option String
  opacity : ℚ
  fill : String
  stroke : String
  children : List PathData
deriving DecidableEq, Repr

/-- `ViewBox`. -/
structure ViewBox where
  x : ℚ
  y : ℚ
  width : ℚ
  height : ℚ
deriving DecidableEq, Repr

/-- `SVGData`. -/
structure SVGData where
  width : ℚ
  height : ℚ
  viewbox : ViewBox
  paths : List PathData
  groups : List GroupData
  filename : String
deriving DecidableEq, Repr

/-! ## Group opacity composition -/

/-- `_apply_group_opacity_to_path`: for group opacity < 1, deep-copy the
path and multiply each of the two opacity channels by the group opacity,
but only when the corresponding paint is not `"none"`; for group
opacity ≥ 1 the input is returned unchanged. -/
def applyGroupOpacityToPath (p : PathData) (groupOpacity : ℚ) : PathData :=
  if 1 ≤ groupOpacity then p
  else
    { p with
      fillOpacity := if p.fill ≠ "none" then p.fillOpacity * groupOpacity else p.fillOpacity,
      strokeOpacity := if p.stroke ≠ "none" then p.strokeOpacity * groupOpacity else p.strokeOpacity }

/-! ## Per-path emission (generate_path_code) -/

/-- One entry of the `path_params` list of `generate_path_code`, as a
structured value; `renderParam` gives the exact source text. -/
inductive PathParam where
  | fillSolid (color : String)
  | fillTypeEvenOdd
  | strokeSolid (color : String)
  | strokeLineWidth (w : ℚ)
deriving DecidableEq, Repr

/-- The source text of one path parameter. -/
def renderParam : PathParam → String
  | PathParam.fillSolid c => "fill = SolidColor(" ++ c ++ ")"
  | PathParam.fillTypeEvenOdd => "pathFillType = PathFillType.EvenOdd"
  | PathParam.strokeSolid c => "stroke = SolidColor(" ++ c ++ ")"
  | PathParam.strokeLineWidth w => "strokeLineWidth = " ++ String.mk (fmt1 w) ++ "f"

/-- The `path_params` list built by `generate_path_code` (and identically by
`_generate_path_helper_method`): fill colour when fill is not `"none"` and
the colour converts, the even-odd fill type, the stroke colour when stroke
is not `"none"` and converts, and the stroke width when it is positive. -/
def buildPathParams (p : PathData) : List PathParam :=
  (match convertColorToComposeWithOpacity p.fill p.fillOpacity with
   | some fc => if p.fill ≠ "none" then [PathParam.fillSolid fc] else []
   | none => []) ++
  (if lowerStr p.fillRule = "evenodd" then [PathParam.fillTypeEvenOdd] else []) ++
  (match (if p.stroke ≠ "none" then convertColorToComposeWithOpacity p.stroke p.strokeOpacity else none) with
   | some sc =>
      if p.stroke ≠ "none" then
        PathParam.strokeSolid sc ::
          (if 0 < p.strokeWidth then [PathParam.strokeLineWidth p.strokeWidth] else [])
      else []
   | none => [])

/-- `generate_path_code`, as its list of emitted lines (empty when the path
has no data). -/
def generatePathCodeLines (p : PathData) (indentLevel : Nat) : List String :=
  if p.d = "" then []
  else
    (if (buildPathParams p).map renderParam ≠ [] then
      (indentStr indentLevel ++ "path(") ::
        (((buildPathParams p).map renderParam).enum.map (fun pr =>
          indentStr indentLevel ++ "    " ++ pr.2 ++
            (if pr.1 + 1 < ((buildPathParams p).map renderParam).length then "," else ""))) ++
        [indentStr indentLevel ++ ") \x7b"]
    else [indentStr indentLevel ++ "path() \x7b"]) ++
    formatPathData p.d (indentLevel + 1) ++ [indentStr indentLevel ++ "\x7d"]

/-- `generate_path_code` (the joined text). -/
def generatePathCode (p : PathData) (indentLevel : Nat) : String :=
  if p.d = "" then "" else String.intercalate "\n" (generatePathCodeLines p indentLevel)

/-- `generate_group_code`: a `group()` block wrapping the children with the
group opacity applied to each exactly once; empty children give "". -/
def generateGroupCode (g : GroupData) (indentLevel : Nat) : String :=
  if g.children = [] then ""
  else
    String.intercalate "\n"
      ((indentStr indentLevel ++ "group() \x7b") ::
        ((g.children.map (fun child =>
            generatePathCode (applyGroupOpacityToPath child g.opacity) (indentLevel + 1))).filter
          (fun s => s ≠ "")) ++
        [indentStr indentLevel ++ "\x7d"])

/-! ## Size-bounded splitting of oversized paths -/

/-- The split threshold of `_generate_all_paths_with_splitting`. -/
def MAX_COMMANDS_PER_METHOD : Nat := 300

/-- `[l[i:i+n] for i in range(0, len(l), n)]` for `n > 0`.  (For `n = 0`
Python's `range` would raise; the threshold is the constant 300.) -/
def chunkList (n : Nat) (l : List α) : List (List α) :=
  match l with
  | [] => []
  | c :: t => if n = 0 then [] else (c :: t).take n :: chunkList n ((c :: t).drop n)
termination_by l.length
decreasing_by
  simp only [List.length_drop, List.length_cons]
  omega

/-- `_create_chunk_path_data`: a deep copy of the path with the chunk
reserialised as its data string. -/
def createChunkPathData (p : PathData) (chunk : List PathCmd) : PathData :=
  { p with d := commandsToPathString chunk }

/-- `_generate_path_helper_method`. -/
def generatePathHelperMethod (p : PathData) (methodName : String) : String :=
  String.intercalate "\n"
    (("private fun ImageVector.Builder." ++ methodName ++ "() \x7b") ::
      (if (buildPathParams p).map renderParam ≠ [] then
        "    path(" ::
          (((buildPathParams p).map renderParam).enum.map (fun pr =>
            "        " ++ pr.2 ++
              (if pr.1 + 1 < ((buildPathParams p).map renderParam).length then "," else ""))) ++
          ["    ) \x7b"]
      else ["    path() \x7b"]) ++
      formatPathData p.d 2 ++ ["    \x7d", "\x7d"])

/-- The name of the `i`-th helper (0-based) at a given running counter. -/
def helperName (iconName : String) (helperCounter i : Nat) : String :=
  "build" ++ iconName ++ "Path" ++ toString (helperCounter + i + 1)

/-- The result of `_generate_split_path_methods`. -/
structure SplitMethods where
  methods : List String
  calls : List String
deriving DecidableEq, Repr

/-- `_generate_split_path_methods`: chunk the command list, emit one helper
method per chunk and one call per chunk, in order. -/
def generateSplitPathMethods (p : PathData) (commands : List PathCmd) (iconName : String)
    (helperCounter maxCommands : Nat) : SplitMethods :=
  { methods := (chunkList maxCommands commands).enum.map (fun ch =>
      generatePathHelperMethod (createChunkPathData p ch.2) (helperName iconName helperCounter ch.1)),
    calls := (chunkList maxCommands commands).enum.map (fun ch =>
      "            " ++ helperName iconName helperCounter ch.1 ++ "()") }

/-- One standalone path's contribution inside the loop of
`_generate_all_paths_with_splitting`: the emitted codes (helper calls for a
split path, the path block otherwise) and the helper methods. -/
def pathContribution (iconName : String) (counter : Nat) (p : PathData) :
    List String × List String :=
  if MAX_COMMANDS_PER_METHOD < (parsePathCommands p.d).length then
    ((generateSplitPathMethods p (parsePathCommands p.d) iconName counter MAX_COMMANDS_PER_METHOD).calls,
     (generateSplitPathMethods p (parsePathCommands p.d) iconName counter MAX_COMMANDS_PER_METHOD).methods)
  else
    ((if generatePathCode p 3 ≠ "" then [generatePathCode p 3] else []), [])

/-- The loop over standalone paths in `_generate_all_paths_with_splitting`:
accumulated path codes, accumulated helper methods, and the running helper
counter (incremented by the number of helpers each split path produced). -/
def splitFold (iconName : String) (paths : List PathData) : List String × List String × Nat :=
  paths.foldl (fun acc p =>
    (acc.1 ++ (pathContribution iconName acc.2.2 p).1,
     acc.2.1 ++ (pathContribution iconName acc.2.2 p).2,
     acc.2.2 + (pathContribution iconName acc.2.2 p).2.length))
    ([], [], 0)

/-- The nonempty group blocks of the document. -/
def groupCodes (svg : SVGData) : List String :=
  (svg.groups.map (fun g => generateGroupCode g 3)).filter (fun s => s ≠ "")

/-- `_generate_all_paths_with_splitting`: the joined path definitions
(standalone paths and helper calls first, then group blocks) and the joined
helper methods. -/
def generateAllPathsWithSplitting (svg : SVGData) (iconName : String) : String × String :=
  (String.intercalate "\n" ((splitFold iconName svg.paths).1 ++ groupCodes svg),
   String.intercalate "\n\n" (splitFold iconName svg.paths).2.1)

/-! ## A model of the parsed XML tree (xml.etree, namespace prefixes removed) -/

/-- An XML element: tag, attributes, optional text (used by `<style>`
elements), children in document order. -/
inductive XElem where
  | mk (tag : String) (attrs : List (String × String)) (text : Option String) (children : List XElem)

/-- The element's tag. -/
def XElem.tag : XElem → String
  | XElem.mk t _ _ _ => t

/-- The element's attribute list. -/
def XElem.attrs : XElem → List (String × String)
  | XElem.mk _ a _ _ => a

/-- The element's text. -/
def XElem.text : XElem → Option String
  | XElem.mk _ _ x _ => x

/-- The element's children. -/
def XElem.children : XElem → List XElem
  | XElem.mk _ _ _ c => c

/-- `element.get(key)`. -/
def getAttr (e : XElem) (key : String) : Option String :=
  (e.attrs.find? (fun kv => kv.1 = key)).map (fun kv => kv.2)

/-- `element.get(key, default)`. -/
def getAttrD (e : XElem) (key dflt : String) : String := (getAttr e key).getD dflt

/-- Document-order traversal: the element itself followed by all its
descendants (`element.iter()`). -/
def iterAll : XElem → List XElem
  | XElem.mk t a x cs => XElem.mk t a x cs :: cs.attach.flatMap (fun c => iterAll c.1)
decreasing_by
  have h := List.sizeOf_lt_of_mem c.2
  simp only [XElem.mk.sizeOf_spec]
  omega

/-- `element.iter(tag)`. -/
def iterTag (e : XElem) (tag : String) : List XElem :=
  (iterAll e).filter (fun d => d.tag = tag)

/-! ## CSS class and inline style resolution -/

/-- Python `str.strip()` on strings. -/
def pyStripStr (s : String) : String := String.mk (pyStrip s.data)

/-- `str.split(sep)` for a one-character separator (keeps empty pieces). -/
def splitOnChar (sep : Char) (cs : List Char) : List (List Char) :=
  match cs with
  | [] => [[]]
  | c :: t =>
    if c = sep then [] :: splitOnChar sep t
    else
      match splitOnChar sep t with
      | [] => [[c]]
      | w :: ws => (c :: w) :: ws

/-- `str.split(sep, 1)`: split at the first occurrence, if any. -/
def splitFirst (sep : Char) (cs : List Char) : Option (List Char × List Char) :=
  match cs with
  | [] => none
  | c :: t =>
    if c = sep then some ([], t)
    else (splitFirst sep t).map (fun p => (c :: p.1, p.2))

/-- `_parse_css_properties` / `_parse_inline_style`: entries split on `;`,
each split at the first `:`, both sides stripped; entries without `:` are
skipped. -/
def parseCssProperties (text : String) : List (String × String) :=
  (splitOnChar ';' text.data).filterMap (fun entry =>
    (splitFirst ':' entry).map (fun p => (String.mk (pyStrip p.1), String.mk (pyStrip p.2))))

/-- Last-wins lookup, modelling repeated dict assignment during property
parsing. -/
def lookupLast (props : List (String × String)) (key : String) : Option String :=
  (props.reverse.find? (fun kv => kv.1 = key)).map (fun kv => kv.2)

/-- The `{` character (written this way as generated-code text). -/
def lbrace : Char := Char.ofNat 123

/-- The `}` character. -/
def rbrace : Char := Char.ofNat 125

/-- One attempt of the class-rule pattern at the head of the text: a
literal dot, the class name, optional whitespace, an opening brace, at
least one non-closing-brace character, a closing brace. -/
def classBlockHere (name : List Char) (text : List Char) : Option (List Char) :=
  match text with
  | '.' :: t =>
    if t.take name.length = name then
      match (t.drop name.length).dropWhile isWSChar with
      | b :: t2 =>
        if b = lbrace then
          if (t2.takeWhile (fun c => c ≠ rbrace)).length ≠ 0 ∧
              t2.drop (t2.takeWhile (fun c => c ≠ rbrace)).length ≠ [] then
            some (t2.takeWhile (fun c => c ≠ rbrace))
          else none
        else none
      | [] => none
    else none
  | _ => none

/-- `re.search` of the class pattern: first matching position wins. -/
def findClassBlock (name : List Char) (text : List Char) : Option (List Char) :=
  match text with
  | [] => none
  | c :: t =>
    match classBlockHere name (c :: t) with
    | some body => some body
    | none => findClassBlock name t

/-- `_resolve_css_class`: scan the document's `<style>` elements in order
and return the properties of the first matching block. -/
def resolveCssRule (styleElems : List XElem) (className : String) : Option (List (String × String)) :=
  match styleElems with
  | [] => none
  | e :: rest =>
    match findClassBlock className.data ((e.text).getD "").data with
    | some body => some (parseCssProperties (String.mk body))
    | none => resolveCssRule rest className

/-- Apply a property table over (fill, stroke, stroke-width, opacity):
present keys override, un-floatable numeric values are ignored. -/
def applyProps (cur : String × String × ℚ × ℚ) (props : List (String × String)) :
    String × String × ℚ × ℚ :=
  ((lookupLast props "fill").getD cur.1,
   (lookupLast props "stroke").getD cur.2.1,
   (match lookupLast props "stroke-width" with
    | some v => ((pyFloat? v.data).getD cur.2.2.1)
    | none => cur.2.2.1),
   (match lookupLast props "opacity" with
    | some v => ((pyFloat? v.data).getD cur.2.2.2)
    | none => cur.2.2.2))

/-- The (fill, stroke, stroke-width, opacity) after the direct attributes
and the optional CSS class layer of `_extract_style_attributes`. -/
def styleAfterClass (root e : XElem) (sw0 op0 : ℚ) : String × String × ℚ × ℚ :=
  match getAttr e "class" with
  | some cn =>
    if cn ≠ "" then
      match resolveCssRule (iterTag root "style") cn with
      | some props =>
        applyProps (getAttrD e "fill" "black", getAttrD e "stroke" "none", sw0, op0) props
      | none => (getAttrD e "fill" "black", getAttrD e "stroke" "none", sw0, op0)
    else (getAttrD e "fill" "black", getAttrD e "stroke" "none", sw0, op0)
  | none => (getAttrD e "fill" "black", getAttrD e "stroke" "none", sw0, op0)

/-- `_extract_style_attributes`: direct attributes, then the CSS class rule
resolved against the stored document root, then the inline `style`
attribute, each layer overriding the previous one.  `none` models an
uncaught `ValueError` from the two unguarded top-level `float()` calls. -/
def extractStyleAttributes (root e : XElem) : Option (String × String × ℚ × ℚ) :=
  match pyFloat? (getAttrD e "stroke-width" "0").data, pyFloat? (getAttrD e "opacity" "1").data with
  | some sw0, some op0 =>
    some (match getAttr e "style" with
      | some st =>
        if st ≠ "" then applyProps (styleAfterClass root e sw0 op0) (parseCssProperties st)
        else styleAfterClass root e sw0 op0
      | none => styleAfterClass root e sw0 op0)
  | _, _ => none

/-! ## Element parsing (paths, polygons, polylines, groups, viewBox) -/

/-- `_parse_path_element`: `none` when the `d` attribute is missing or
empty, otherwise a `PathData` with resolved style attributes (a style
`float()` failure would abort the file; it is modelled as `none` too). -/
def parsePathElement (root e : XElem) : Option PathData :=
  match getAttr e "d" with
  | none => none
  | some d =>
    if d = "" then none
    else
      match extractStyleAttributes root e with
      | some (fill, stroke, sw, op) =>
        some (mkPathData (pyStripStr d) fill stroke sw
          (getAttrD e "fill-rule" "nonzero") op (getAttr e "transform"))
      | none => none

/-- A decimal rendering of a rational, standing in for Python's shortest
round-tripping `str(float)`; it agrees with it on values with at most 17
terminating decimal digits, which covers the coordinate grids of `points`
attributes. -/
def ratRepr (q : ℚ) : String :=
  (if q < 0 then "-" else "") ++
    String.mk (natDecimal ⌊|q|⌋.toNat) ++ "." ++
    (if ((List.replicate (17 - (natDecimal ⌊(|q| - ⌊|q|⌋) * 10 ^ 17⌋.toNat).length) '0' ++
          natDecimal ⌊(|q| - ⌊|q|⌋) * 10 ^ 17⌋.toNat).reverse.dropWhile (fun c => c = '0')).reverse = [] then "0"
     else String.mk (((List.replicate (17 - (natDecimal ⌊(|q| - ⌊|q|⌋) * 10 ^ 17⌋.toNat).length) '0' ++
          natDecimal ⌊(|q| - ⌊|q|⌋) * 10 ^ 17⌋.toNat).reverse.dropWhile (fun c => c = '0')).reverse))

/-- Consecutive coordinate pairs; a trailing odd value is dropped. -/
def pairUp : List ℚ → List (ℚ × ℚ)
  | x :: y :: t => (x, y) :: pairUp t
  | _ => []

/-- `_points_to_path_data`: `none` models a `float()` failure (caught by
the polygon/polyline handlers). -/
def pointsToPathData (pointsStr : String) (closePath : Bool) : Option String :=
  if ((words ((pyStrip pointsStr.data).map commaToSpace)).map (fun w => pyFloat? w)).any
      (fun v => v = none) then none
  else
    match ((words ((pyStrip pointsStr.data).map commaToSpace)).map (fun w => pyFloat? w)).reduceOption
      with
    | [] => some ""
    | v :: vs =>
      match pairUp (v :: vs) with
      | [] => some ""
      | c0 :: cRest =>
        some (String.intercalate " "
          (("M " ++ ratRepr c0.1 ++ " " ++ ratRepr c0.2) ::
            (cRest.map (fun xy => "L " ++ ratRepr xy.1 ++ " " ++ ratRepr xy.2)) ++
            (if closePath then ["Z"] else [])))

/-- `_parse_polygon_element`. -/
def parsePolygonElement (root e : XElem) : Option PathData :=
  match getAttr e "points" with
  | none => none
  | some pts =>
    if pts = "" then none
    else
      match pointsToPathData pts true, extractStyleAttributes root e with
      | some d, some (fill, stroke, sw, op) =>
        some (mkPathData d fill stroke sw (getAttrD e "fill-rule" "nonzero") op (getAttr e "transform"))
      | _, _ => none

/-- `_parse_polyline_element`. -/
def parsePolylineElement (root e : XElem) : Option PathData :=
  match getAttr e "points" with
  | none => none
  | some pts =>
    if pts = "" then none
    else
      match pointsToPathData pts false, extractStyleAttributes root e with
      | some d, some (fill, stroke, sw, op) =>
        some (mkPathData d fill stroke sw (getAttrD e "fill-rule" "nonzero") op (getAttr e "transform"))
      | _, _ => none

/-- `extract_paths`: every `path` descendant of the root, in document order
and including those nested inside groups, then every `polygon`, then every
`polyline`. -/
def extractPaths (root : XElem) : List PathData :=
  (iterTag root "path").filterMap (parsePathElement root) ++
    (iterTag root "polygon").filterMap (parsePolygonElement root) ++
    (iterTag root "polyline").filterMap (parsePolylineElement root)

/-- `_parse_group_element`: the group's own attributes and every `path`
descendant of the group element (parsed with the same document root). -/
def parseGroupElement (root g : XElem) : Option GroupData :=
  match pyFloat? (getAttrD g "opacity" "1").data with
  | some op =>
    some { transform := getAttr g "transform", opacity := op,
           fill := getAttrD g "fill" "black", stroke := getAttrD g "stroke" "none",
           children := (iterTag g "path").filterMap (parsePathElement root) }
  | none => none

/-- `extract_groups`. -/
def extractGroups (root : XElem) : List GroupData :=
  (iterTag root "g").filterMap (parseGroupElement root)

/-- Remove every occurrence of `px`, `pt`, `em`, `rem` or `%` (the
alternation of `_parse_dimension`). -/
def stripUnits (cs : List Char) : List Char :=
  match cs with
  | 'p' :: 'x' :: t => stripUnits t
  | 'p' :: 't' :: t => stripUnits t
  | 'e' :: 'm' :: t => stripUnits t
  | 'r' :: 'e' :: 'm' :: t => stripUnits t
  | '%' :: t => stripUnits t
  | c :: t => c :: stripUnits t
  | [] => []

/-- `_parse_dimension`: strip, remove units, convert; 24 on failure. -/
def parseDimension (s : String) : ℚ :=
  (pyFloat? (stripUnits (pyStrip s.data))).getD 24

/-- `ViewBox.from_string`: exactly four floats give the viewBox; a float
error or any other count logs a warning and falls back to `0 0 24 24`. -/
def viewBoxFromString (s : String) : ViewBox :=
  match (words (pyStrip s.data)).map (fun w => pyFloat? w) with
  | [some a, some b, some c, some d] => ⟨a, b, c, d⟩
  | _ => ⟨0, 0, 24, 24⟩

/-- `extract_viewbox`: a present non-empty `viewBox` attribute is parsed
with `ViewBox.from_string`; otherwise the fallback is
`ViewBox(0, 0, width, height)` from the root's dimension attributes. -/
def extractViewbox (root : XElem) : ViewBox :=
  match getAttr root "viewBox" with
  | some s =>
    if s ≠ "" then viewBoxFromString s
    else ⟨0, 0, parseDimension (getAttrD root "width" "24"), parseDimension (getAttrD root "height" "24")⟩
  | none =>
    ⟨0, 0, parseDimension (getAttrD root "width" "24"), parseDimension (getAttrD root "height" "24")⟩

/-! ## Batch identifier resolution (main._resolve_duplicate_names) -/

/-- One entry of the aggregation pass: generated identifier and the output
file's path parts relative to the output root (directories, then the
filename last). -/
structure IconEntry where
  name : String
  pathParts : List String
deriving DecidableEq, Repr

/-- Python `str.capitalize()`: first character uppercased, the rest
lowercased. -/
def pyCapitalize (s : String) : String :=
  match s.data with
  | [] => ""
  | c :: t => String.mk (Char.toUpper c :: t.map Char.toLower)

/-- First-occurrence-ordered distinct names: the key order of the
`name_groups` dict built by insertion. -/
def firstDedup (l : List String) : List String :=
  match l with
  | [] => []
  | n :: rest => n :: firstDedup (rest.filter (fun m => m ≠ n))
termination_by l.length
decreasing_by
  have := List.length_filter_le (fun m => m ≠ n) rest
  simp only [List.length_cons]
  omega

/-- The renaming applied to every member of a duplicated group: suffix the
capitalised immediate parent directory name, or `"Root"` for a bare
filename. -/
def renameDup (e : IconEntry) : IconEntry :=
  if 1 < e.pathParts.length then
    { e with name := e.name ++ pyCapitalize (e.pathParts.getD (e.pathParts.length - 2) "") }
  else
    { e with name := e.name ++ "Root" }

/-- `_resolve_duplicate_names`: group the entries by exact name (dict
insertion order), keep singleton groups unchanged, rename every member of a
larger group. -/
def resolveDuplicateNames (icons : List IconEntry) : List IconEntry :=
  (firstDedup (icons.map (fun i => i.name))).flatMap (fun n =>
    if (icons.filter (fun i => i.name = n)).length = 1 then
      icons.filter (fun i => i.name = n)
    else
      (icons.filter (fun i => i.name = n)).map renameDup)

/-! ## Step lemmas for the parsing loop -/

theorem parseTokens_M_abs (cx cy v1 v2 : ℚ) (t1 t2 : List Char) (rest : List (List Char))
    (h1 : pyFloat? t1 = some v1) (h2 : pyFloat? t2 = some v2) :
    parseTokens cx cy (['M'] :: t1 :: t2 :: rest) =
      PathCmd.moveTo v1 v2 :: parseTokens v1 v2 rest := by
  have e : parseTokens cx cy (['M'] :: t1 :: t2 :: rest) =
      (match pyFloat? t1, pyFloat? t2 with
       | some x0, some y0 => PathCmd.moveTo x0 y0 :: parseTokens x0 y0 rest
       | _, _ => parseTokens cx cy rest) := rfl
  rw [e, h1, h2]

theorem parseTokens_L_abs (cx cy v1 v2 : ℚ) (t1 t2 : List Char) (rest : List (List Char))
    (h1 : pyFloat? t1 = some v1) (h2 : pyFloat? t2 = some v2) :
    parseTokens cx cy (['L'] :: t1 :: t2 :: rest) =
      PathCmd.lineTo v1 v2 :: parseTokens v1 v2 rest := by
  have e : parseTokens cx cy (['L'] :: t1 :: t2 :: rest) =
      (match pyFloat? t1, pyFloat? t2 with
       | some x0, some y0 => PathCmd.lineTo x0 y0 :: parseTokens x0 y0 rest
       | _, _ => parseTokens cx cy rest) := rfl
  rw [e, h1, h2]

theorem parseTokens_H_abs (cx cy v1 : ℚ) (t1 : List Char) (rest : List (List Char))
    (h1 : pyFloat? t1 = some v1) :
    parseTokens cx cy (['H'] :: t1 :: rest) =
      PathCmd.hline v1 false :: parseTokens v1 cy rest := by
  have e : parseTokens cx cy (['H'] :: t1 :: rest) =
      (match pyFloat? t1 with
       | some x0 => PathCmd.hline x0 false :: parseTokens x0 cy rest
       | none => parseTokens cx cy rest) := rfl
  rw [e, h1]

theorem parseTokens_h_rel (cx cy v1 : ℚ) (t1 : List Char) (rest : List (List Char))
    (h1 : pyFloat? t1 = some v1) :
    parseTokens cx cy (['h'] :: t1 :: rest) =
      PathCmd.hline v1 true :: parseTokens (cx + v1) cy rest := by
  have e : parseTokens cx cy (['h'] :: t1 :: rest) =
      (match pyFloat? t1 with
       | some x0 => PathCmd.hline x0 true :: parseTokens (cx + x0) cy rest
       | none => parseTokens cx cy rest) := rfl
  rw [e, h1]

theorem parseTokens_V_abs (cx cy v1 : ℚ) (t1 : List Char) (rest : List (List Char))
    (h1 : pyFloat? t1 = some v1) :
    parseTokens cx cy (['V'] :: t1 :: rest) =
      PathCmd.vline v1 false :: parseTokens cx v1 rest := by
  have e : parseTokens cx cy (['V'] :: t1 :: rest) =
      (match pyFloat? t1 with
       | some y0 => PathCmd.vline y0 false :: parseTokens cx y0 rest
       | none => parseTokens cx cy rest) := rfl
  rw [e, h1]

theorem parseTokens_C_abs (cx cy w1 w2 w3 w4 w5 w6 : ℚ) (t1 t2 t3 t4 t5 t6 : List Char)
    (rest : List (List Char))
    (h1 : pyFloat? t1 = some w1) (h2 : pyFloat? t2 = some w2) (h3 : pyFloat? t3 = some w3)
    (h4 : pyFloat? t4 = some w4) (h5 : pyFloat? t5 = some w5) (h6 : pyFloat? t6 = some w6) :
    parseTokens cx cy (['C'] :: t1 :: t2 :: t3 :: t4 :: t5 :: t6 :: rest) =
      PathCmd.curveTo w1 w2 w3 w4 w5 w6 :: parseTokens w5 w6 rest := by
  have e : parseTokens cx cy (['C'] :: t1 :: t2 :: t3 :: t4 :: t5 :: t6 :: rest) =
      (match pyFloat? t1, pyFloat? t2, pyFloat? t3, pyFloat? t4, pyFloat? t5, pyFloat? t6 with
       | some x1, some y1, some x2, some y2, some x0, some y0 =>
         PathCmd.curveTo x1 y1 x2 y2 x0 y0 :: parseTokens x0 y0 rest
       | _, _, _, _, _, _ => parseTokens cx cy rest) := rfl
  rw [e, h1, h2, h3, h4, h5, h6]

theorem parseTokens_Z (cx cy : ℚ) (rest : List (List Char)) :
    parseTokens cx cy (['Z'] :: rest) = PathCmd.close :: parseTokens cx cy rest := rfl

theorem parseTokens_z (cx cy : ℚ) (rest : List (List Char)) :
    parseTokens cx cy (['z'] :: rest) = PathCmd.close :: parseTokens cx cy rest := rfl

theorem not_ws_of_digit {c : Char} (h : isDigitChar c = true) : isWSChar c = false := by
  by_contra hw
  rw [Bool.not_eq_false] at hw
  simp only [isWSChar, Bool.or_eq_true, decide_eq_true_eq, or_assoc] at hw
  rcases hw with h1 | h1 | h1 | h1 | h1 | h1 <;> (subst h1; revert h; decide)

theorem not_sign_of_digit {c : Char} (h : isDigitChar c = true) : isSignChar c = false := by
  by_contra hw
  rw [Bool.not_eq_false] at hw
  simp only [isSignChar, Bool.or_eq_true, decide_eq_true_eq] at hw
  rcases hw with h1 | h1 <;> (subst h1; revert h; decide)

theorem not_dot_of_digit {c : Char} (h : isDigitChar c = true) : c ≠ '.' := by
  intro h1; subst h1; revert h; decide

theorem not_comma_of_digit {c : Char} (h : isDigitChar c = true) : c ≠ ',' := by
  intro h1; subst h1; revert h; decide

theorem not_minus_of_digit {c : Char} (h : isDigitChar c = true) : c ≠ '-' := by
  intro h1; subst h1; revert h; decide

theorem not_plus_of_digit {c : Char} (h : isDigitChar c = true) : c ≠ '+' := by
  intro h1; subst h1; revert h; decide

theorem not_letter_of_digit {c : Char} (h : isDigitChar c = true) : isCmdLetter c = false := by
  by_contra hw
  rw [Bool.not_eq_false] at hw
  simp only [isCmdLetter, Bool.or_eq_true, decide_eq_true_eq, or_assoc] at hw
  rcases hw with h1 | h1 | h1 | h1 | h1 | h1 | h1 | h1 | h1 | h1 | h1 | h1 | h1 | h1 | h1 | h1 |
    h1 | h1 | h1 | h1 <;> (subst h1; revert h; decide)

/-- The characters of `fmt2 q`: digits, the dot, and a possible leading
minus sign. -/
theorem fmt2_mem (q : ℚ) : ∀ c ∈ fmt2 q, isDigitChar c = true ∨ c = '.' ∨ c = '-' := by
  intro c hc
  unfold fmt2 at hc
  by_cases hq : q < 0
  · rw [if_pos hq] at hc
    simp only [List.mem_append, List.mem_cons, List.mem_singleton, List.not_mem_nil,
      false_or, or_false] at hc
    rcases hc with (hm | hm) | hm | hm
    · right; right; exact hm
    · left; exact natDecimal_all_digits _ c hm
    · right; left; exact hm
    · left; exact pad2_all_digits _ (Nat.mod_lt _ (by norm_num)) c hm
  · rw [if_neg hq] at hc
    simp only [List.nil_append, List.mem_append, List.mem_cons] at hc
    rcases hc with hm | hm | hm
    · left; exact natDecimal_all_digits _ c hm
    · right; left; exact hm
    · left; exact pad2_all_digits _ (Nat.mod_lt _ (by norm_num)) c hm

/-! ## takeWhile and dropWhile helpers -/

theorem takeWhile_all {p : Char → Bool} {l : List Char} (h : ∀ c ∈ l, p c = true) :
    l.takeWhile p = l := by
  induction l with
  | nil => rfl
  | cons c t ih =>
    rw [List.takeWhile_cons, h c (by simp)]
    simp [ih (fun d hd => h d (by simp [hd]))]

theorem takeWhile_append_stop {p : Char → Bool} {xs ys : List Char} {y : Char}
    (hxs : ∀ c ∈ xs, p c = true) (hy : p y = false) :
    (xs ++ y :: ys).takeWhile p = xs := by
  induction xs with
  | nil => simp [List.takeWhile_cons, hy]
  | cons c t ih =>
    rw [List.cons_append, List.takeWhile_cons, hxs c (by simp)]
    simp [ih (fun d hd => hxs d (by simp [hd]))]

theorem dropWhile_all_neg {p : Char → Bool} {l : List Char} (h : ∀ c ∈ l, p c = false) :
    l.dropWhile p = l := by
  cases l with
  | nil => rfl
  | cons c t => rw [List.dropWhile_cons, h c (by simp)]; simp

theorem pyStrip_eq_self {l : List Char} (h : ∀ c ∈ l, isWSChar c = false) : pyStrip l = l := by
  unfold pyStrip
  rw [dropWhile_all_neg h, dropWhile_all_neg (fun c hc => h c (List.mem_reverse.mp hc)),
    List.reverse_reverse]

/-! ## float() of a formatted number -/

theorem take1_of_digits {l : List Char} (m : List Char) (hl : l ≠ [])
    (hd : ∀ c ∈ l, isDigitChar c = true) :
    (l ++ m).take 1 ≠ ['-'] ∧ (l ++ m).take 1 ≠ ['+'] := by
  cases l with
  | nil => exact absurd rfl hl
  | cons c t =>
    have hc : isDigitChar c = true := hd c (by simp)
    simp only [List.cons_append, List.take_succ_cons, List.take_zero, ne_eq,
      List.cons.injEq, and_true]
    exact ⟨fun h => not_minus_of_digit hc h, fun h => not_plus_of_digit hc h⟩

theorem pyFloatCore_decimal (neg : Bool) (A B : Nat) (hB : B < 100) :
    pyFloatCore ((if neg = true then ['-'] else []) ++ natDecimal A ++ '.' :: pad2 B) =
      some ((if neg = true then (-1 : ℚ) else 1) * ((A * 100 + B : ℕ) : ℚ) / 100) := by
  have hA : ∀ c ∈ natDecimal A, isDigitChar c = true := natDecimal_all_digits A
  have hp : ∀ c ∈ pad2 B, isDigitChar c = true := pad2_all_digits B hB
  have hdot : isDigitChar '.' = false := by decide
  have h1 : (natDecimal A ++ '.' :: pad2 B).takeWhile isDigitChar = natDecimal A :=
    takeWhile_append_stop hA hdot
  have h3 : (pad2 B).takeWhile isDigitChar = pad2 B := takeWhile_all hp
  have hlen2 : (pad2 B).length = 2 := rfl
  have hAne : natDecimal A ≠ [] := natDecimal_ne_nil A
  have ht := take1_of_digits ('.' :: pad2 B) hAne hA
  have hu : pyUnsign (natDecimal A ++ '.' :: pad2 B) = natDecimal A ++ '.' :: pad2 B := by
    unfold pyUnsign
    rw [if_neg (not_or.mpr ht)]
  have hsg : pySign (natDecimal A ++ '.' :: pad2 B) = 1 := by
    unfold pySign
    rw [if_neg ht.1]
  have hai : pyAfterInt (natDecimal A ++ '.' :: pad2 B) = '.' :: pad2 B := by
    unfold pyAfterInt
    rw [h1, List.drop_left]
  have hfd : pyFracDigits (natDecimal A ++ '.' :: pad2 B) = pad2 B := by
    unfold pyFracDigits
    rw [hai]
    exact h3
  have hxt : pyExpTail (natDecimal A ++ '.' :: pad2 B) = [] := by
    unfold pyExpTail
    rw [hai]
    show List.drop ((pad2 B).takeWhile isDigitChar).length (pad2 B) = []
    rw [h3, List.drop_length]
  have hmain : pyFloatCore (natDecimal A ++ '.' :: pad2 B) =
      some (((A * 100 + B : ℕ) : ℚ) / 100) := by
    unfold pyFloatCore
    rw [hu, hsg, hfd, hxt, h1]
    rw [if_neg (fun hh => hAne hh.1)]
    rw [digitsVal_natDecimal, digitsVal_pad2 B hB, hlen2]
    norm_num [pyExpPart]
  have hneg : pyFloatCore ('-' :: (natDecimal A ++ '.' :: pad2 B)) =
      some (-(((A * 100 + B : ℕ) : ℚ)) / 100) := by
    have hu2 : pyUnsign ('-' :: (natDecimal A ++ '.' :: pad2 B)) =
        natDecimal A ++ '.' :: pad2 B := by
      unfold pyUnsign
      rw [if_pos (show List.take 1 ('-' :: (natDecimal A ++ '.' :: pad2 B)) = ['-'] ∨
        List.take 1 ('-' :: (natDecimal A ++ '.' :: pad2 B)) = ['+'] from Or.inl rfl)]
      rfl
    have hs2 : pySign ('-' :: (natDecimal A ++ '.' :: pad2 B)) = -1 := by
      unfold pySign
      rw [if_pos (show List.take 1 ('-' :: (natDecimal A ++ '.' :: pad2 B)) = ['-'] from rfl)]
    unfold pyFloatCore
    rw [hu2, hs2, hfd, hxt, h1]
    rw [if_neg (fun hh => hAne hh.1)]
    rw [digitsVal_natDecimal, digitsVal_pad2 B hB, hlen2]
    norm_num [pyExpPart]
  cases neg with
  | false => simpa using hmain
  | true => simpa using hneg

/-- `float()` inverts two-decimal formatting: parsing `f"{q:.2f}"` gives
exactly the rounded value `round2 q`. -/
theorem pyFloat_fmt2 (q : ℚ) : pyFloat? (fmt2 q) = some (round2 q) := by
  have hnws : ∀ c ∈ fmt2 q, isWSChar c = false := by
    intro c hc
    rcases fmt2_mem q c hc with h | h | h
    · exact not_ws_of_digit h
    · rw [h]; rfl
    · rw [h]; rfl
  unfold pyFloat?
  rw [pyStrip_eq_self hnws]
  unfold fmt2
  have hB : (rnd2 q).natAbs % 100 < 100 := Nat.mod_lt _ (by norm_num)
  by_cases hq : q < 0
  · rw [if_pos hq]
    have hd := pyFloatCore_decimal true ((rnd2 q).natAbs / 100) ((rnd2 q).natAbs % 100) hB
    simp only [eq_self_iff_true, if_true, List.singleton_append] at hd
    rw [List.cons_append] at hd
    rw [show ((['-'] : List Char) ++ natDecimal ((rnd2 q).natAbs / 100) ++
        '.' :: pad2 ((rnd2 q).natAbs % 100)) = '-' :: (natDecimal ((rnd2 q).natAbs / 100) ++
        '.' :: pad2 ((rnd2 q).natAbs % 100)) from by simp]
    rw [hd]
    congr 1
    rw [show (rnd2 q).natAbs / 100 * 100 + (rnd2 q).natAbs % 100 = (rnd2 q).natAbs from by omega]
    unfold round2
    have hr : rnd2 q ≤ 0 := rndHalfEven_nonpos _ (by nlinarith)
    have hcast : (((rnd2 q).natAbs : ℕ) : ℚ) = -((rnd2 q : ℤ) : ℚ) := by
      rw [Int.cast_natAbs]
      exact_mod_cast abs_of_nonpos hr
    rw [hcast]
    ring
  · rw [if_neg hq]
    have hd := pyFloatCore_decimal false ((rnd2 q).natAbs / 100) ((rnd2 q).natAbs % 100) hB
    simp only [Bool.false_eq_true, if_false, List.nil_append] at hd
    rw [List.nil_append, hd]
    congr 1
    rw [show (rnd2 q).natAbs / 100 * 100 + (rnd2 q).natAbs % 100 = (rnd2 q).natAbs from by omega]
    unfold round2
    have hr : 0 ≤ rnd2 q := rndHalfEven_nonneg _ (by nlinarith [not_lt.mp hq])
    have hcast : (((rnd2 q).natAbs : ℕ) : ℚ) = ((rnd2 q : ℤ) : ℚ) := by
      rw [Int.cast_natAbs]
      exact_mod_cast abs_of_nonneg hr
    rw [hcast]
    ring

/-! ## words: splitting on whitespace -/

theorem dropWhile_append_all {p : Char → Bool} {xs : List Char} (ys : List Char)
    (h : ∀ c ∈ xs, p c = true) :
    (xs ++ ys).dropWhile p = ys.dropWhile p := by
  induction xs with
  | nil => rfl
  | cons c t ih =>
    rw [List.cons_append, List.dropWhile_cons, h c (by simp)]
    exact ih (fun d hd => h d (by simp [hd]))

theorem takeWhile_eq_self_of_length {p : Char → Bool} {l : List Char}
    (h : l.length ≤ (l.takeWhile p).length) : l.takeWhile p = l := by
  induction l with
  | nil => rfl
  | cons c t ih =>
    rw [List.takeWhile_cons] at h ⊢
    by_cases hc : p c = true
    · rw [hc] at h ⊢
      simp only [if_true, List.length_cons, Nat.add_le_add_iff_right] at h
      simp [ih h]
    · rw [Bool.not_eq_true] at hc
      rw [hc] at h
      simp at h

theorem takeWhile_eq_self_imp_all {p : Char → Bool} {l : List Char}
    (h : l.takeWhile p = l) : ∀ c ∈ l, p c = true := by
  induction l with
  | nil => intro c hc; cases hc
  | cons c t ih =>
    rw [List.takeWhile_cons] at h
    by_cases hc : p c = true
    · rw [hc] at h
      simp only [if_true, List.cons.injEq, true_and] at h
      intro d hd
      rcases List.mem_cons.mp hd with rfl | hmem
      · exact hc
      · exact ih h d hmem
    · rw [Bool.not_eq_true] at hc
      rw [hc] at h
      simp at h

theorem takeWhile_append_of_lt {p : Char → Bool} {xs : List Char} (ys : List Char)
    (h : (xs.takeWhile p).length < xs.length) :
    (xs ++ ys).takeWhile p = xs.takeWhile p := by
  induction xs with
  | nil => simp at h
  | cons c t ih =>
    rw [List.cons_append, List.takeWhile_cons, List.takeWhile_cons]
    by_cases hc : p c = true
    · rw [hc]
      rw [List.takeWhile_cons, hc] at h
      simp only [if_true, List.length_cons, Nat.add_lt_add_iff_right] at h
      simp [ih h]
    · rw [Bool.not_eq_true] at hc
      rw [hc]
      simp

theorem dropWhile_append_of_lt {p : Char → Bool} {xs : List Char} (ys : List Char)
    (h : (xs.takeWhile p).length < xs.length) :
    (xs ++ ys).dropWhile p = xs.dropWhile p ++ ys := by
  induction xs with
  | nil => simp at h
  | cons c t ih =>
    rw [List.cons_append, List.dropWhile_cons, List.dropWhile_cons]
    by_cases hc : p c = true
    · rw [hc]
      rw [List.takeWhile_cons, hc] at h
      simp only [if_true, List.length_cons, Nat.add_lt_add_iff_right] at h
      simp [ih h]
    · rw [Bool.not_eq_true] at hc
      rw [hc]
      simp

theorem words_cons_ws {c : Char} (b : List Char) (h : isWSChar c = true) :
    words (c :: b) = words b := by
  rw [words, h]
  simp

theorem words_cons_not_ws {c : Char} (b : List Char) (h : isWSChar c = false) :
    words (c :: b) =
      (c :: b.takeWhile (fun d => !isWSChar d)) :: words (b.dropWhile (fun d => !isWSChar d)) := by
  rw [words, h]
  simp

/-- Inserting a space always splits words at that point. -/
theorem words_append_space (a b : List Char) :
    words (a ++ ' ' :: b) = words a ++ words b := by
  have H : ∀ n (a b : List Char), a.length = n →
      words (a ++ ' ' :: b) = words a ++ words b := by
    intro n
    induction n using Nat.strong_induction_on with
    | _ n ih =>
      intro a b hn
      cases a with
      | nil =>
        rw [List.nil_append, words_cons_ws b (by decide), words]
        rfl
      | cons c t =>
        by_cases hc : isWSChar c = true
        · rw [List.cons_append, words_cons_ws _ hc, words_cons_ws _ hc]
          exact ih t.length (by rw [← hn]; simp) t b rfl
        · rw [Bool.not_eq_true] at hc
          rw [List.cons_append, words_cons_not_ws _ hc, words_cons_not_ws _ hc]
          by_cases hlt : (t.takeWhile (fun d => !isWSChar d)).length < t.length
          · rw [takeWhile_append_of_lt _ hlt, dropWhile_append_of_lt _ hlt]
            rw [ih (t.dropWhile (fun d => !isWSChar d)).length
              (by rw [← hn]
                  simp only [List.length_cons]
                  exact Nat.lt_succ_of_le (length_dropWhile_le' _ t))
              (t.dropWhile (fun d => !isWSChar d)) b rfl]
            simp
          · have hself : t.takeWhile (fun d => !isWSChar d) = t :=
              takeWhile_eq_self_of_length (Nat.le_of_not_lt hlt)
            have hall : ∀ d ∈ t, (fun d => !isWSChar d) d = true :=
              takeWhile_eq_self_imp_all hself
            have hdt : t.dropWhile (fun d => !isWSChar d) = [] := by
              rw [List.dropWhile_eq_nil_iff]
              intro d hd
              simpa using hall d hd
            rw [takeWhile_append_stop hall (by decide), dropWhile_append_all _ hall, hself, hdt]
            rw [List.dropWhile_cons]
            rw [if_neg (show ¬((fun d => !isWSChar d) ' ' = true) from by decide)]
            rw [words_cons_ws _ (by decide), words]
            simp
  exact H a.length a b rfl

/-! ## Further character facts about formatted numbers -/

theorem fmt2_ne_nil (q : ℚ) : fmt2 q ≠ [] := by
  unfold fmt2
  simp

theorem fmt2_no_ws (q : ℚ) : ∀ c ∈ fmt2 q, isWSChar c = false := by
  intro c hc
  rcases fmt2_mem q c hc with h | h | h
  · exact not_ws_of_digit h
  · subst h; decide
  · subst h; decide

theorem fmt2_no_comma (q : ℚ) : ∀ c ∈ fmt2 q, commaToSpace c = c := by
  intro c hc
  unfold commaToSpace
  rcases fmt2_mem q c hc with h | h | h
  · rw [if_neg (not_comma_of_digit h)]
  · subst h; rfl
  · subst h; rfl

theorem fmt2_no_letter (q : ℚ) : ∀ c ∈ fmt2 q, isCmdLetter c = false := by
  intro c hc
  rcases fmt2_mem q c hc with h | h | h
  · exact not_letter_of_digit h
  · subst h; decide
  · subst h; decide

theorem fmt2_tail_no_sign (q : ℚ) : ∀ c ∈ (fmt2 q).tail, isSignChar c = false := by
  have hrest : ∀ c ∈ natDecimal ((rnd2 q).natAbs / 100) ++
      '.' :: pad2 ((rnd2 q).natAbs % 100), isSignChar c = false := by
    intro c hc
    simp only [List.mem_append, List.mem_cons] at hc
    rcases hc with hm | hm | hm
    · exact not_sign_of_digit (natDecimal_all_digits _ c hm)
    · subst hm; decide
    · exact not_sign_of_digit (pad2_all_digits _ (Nat.mod_lt _ (by norm_num)) c hm)
  intro c hc
  unfold fmt2 at hc
  by_cases hq : q < 0
  · rw [if_pos hq] at hc
    simp only [List.cons_append, List.singleton_append, List.tail_cons] at hc
    exact hrest c (by simpa using hc)
  · rw [if_neg hq, List.nil_append] at hc
    exact hrest c (List.mem_of_mem_tail (by simpa using hc))

theorem fmt2_getLast_digit (q : ℚ) :
    ∀ c ∈ (fmt2 q).getLast?, isDigitChar c = true := by
  intro c hc
  unfold fmt2 at hc
  rw [List.getLast?_append] at hc
  simp only [pad2, List.getLast?_cons_cons, List.getLast?_singleton] at hc
  have hor : ∀ (a : Char) (x : Option Char), (some a).or x = some a := fun _ _ => rfl
  rw [hor] at hc
  simp only [Option.mem_def, Option.some.injEq] at hc
  subst hc
  exact isDigitChar_char _ (by omega)

theorem fmt2_head_mem (q : ℚ) : ∀ c ∈ (fmt2 q).head?, c ∈ fmt2 q := by
  intro c hc
  exact List.mem_of_mem_head? hc

/-! ## Invariance of words under whitespace normalisation -/

theorem words_all_ws {l : List Char} (h : ∀ c ∈ l, isWSChar c = true) : words l = [] := by
  induction l with
  | nil => rw [words]
  | cons c t ih =>
    rw [words_cons_ws _ (h c (by simp))]
    exact ih (fun d hd => h d (by simp [hd]))

theorem words_single {l : List Char} (hne : l ≠ []) (h : ∀ c ∈ l, isWSChar c = false) :
    words l = [l] := by
  cases l with
  | nil => exact absurd rfl hne
  | cons c t =>
    rw [words_cons_not_ws _ (h c (by simp))]
    have ht : ∀ d ∈ t, (fun d => !isWSChar d) d = true := by
      intro d hd; simp [h d (by simp [hd])]
    rw [takeWhile_all ht, List.dropWhile_eq_nil_iff.mpr (fun d hd => ht d hd), words]

theorem words_dropWhile_ws (l : List Char) : words (l.dropWhile isWSChar) = words l := by
  induction l with
  | nil => rfl
  | cons c t ih =>
    rw [List.dropWhile_cons]
    by_cases hc : isWSChar c = true
    · rw [hc, if_pos rfl, ih, words_cons_ws _ hc]
    · rw [Bool.not_eq_true] at hc
      rw [hc]
      simp

/-- Inserting any whitespace character splits words at that point. -/
theorem words_append_wschar (u : Char) (hu : isWSChar u = true) (a b : List Char) :
    words (a ++ u :: b) = words a ++ words b := by
  have H : ∀ n (a b : List Char), a.length = n →
      words (a ++ u :: b) = words a ++ words b := by
    intro n
    induction n using Nat.strong_induction_on with
    | _ n ih =>
      intro a b hn
      cases a with
      | nil =>
        rw [List.nil_append, words_cons_ws b hu, words]
        rfl
      | cons c t =>
        by_cases hc : isWSChar c = true
        · rw [List.cons_append, words_cons_ws _ hc, words_cons_ws _ hc]
          exact ih t.length (by rw [← hn]; simp) t b rfl
        · rw [Bool.not_eq_true] at hc
          rw [List.cons_append, words_cons_not_ws _ hc, words_cons_not_ws _ hc]
          by_cases hlt : (t.takeWhile (fun d => !isWSChar d)).length < t.length
          · rw [takeWhile_append_of_lt _ hlt, dropWhile_append_of_lt _ hlt]
            rw [ih (t.dropWhile (fun d => !isWSChar d)).length
              (by rw [← hn]
                  simp only [List.length_cons]
                  exact Nat.lt_succ_of_le (length_dropWhile_le' _ t))
              (t.dropWhile (fun d => !isWSChar d)) b rfl]
            simp
          · have hself : t.takeWhile (fun d => !isWSChar d) = t :=
              takeWhile_eq_self_of_length (Nat.le_of_not_lt hlt)
            have hall : ∀ d ∈ t, (fun d => !isWSChar d) d = true :=
              takeWhile_eq_self_imp_all hself
            have hdt : t.dropWhile (fun d => !isWSChar d) = [] := by
              rw [List.dropWhile_eq_nil_iff]
              intro d hd
              simpa using hall d hd
            rw [takeWhile_append_stop hall (by simp [hu]), dropWhile_append_all _ hall,
              hself, hdt]
            rw [List.dropWhile_cons]
            rw [if_neg (show ¬((fun d => !isWSChar d) u = true) by simp [hu])]
            rw [words_cons_ws _ hu, words]
            simp
  exact H a.length a b rfl

theorem words_append_ws {w : List Char} (y : List Char)
    (h : ∀ c ∈ w, isWSChar c = true) : words (y ++ w) = words y := by
  cases w with
  | nil => simp
  | cons c t =>
    have ht : ∀ d ∈ t, isWSChar d = true := fun d hd => h d (List.mem_cons_of_mem _ hd)
    rw [words_append_wschar c (h c (List.mem_cons_self c t)) y t, words_all_ws ht]
    simp

theorem takeWhile_append_all {p : Char → Bool} {xs : List Char} (ys : List Char)
    (h : ∀ c ∈ xs, p c = true) :
    (xs ++ ys).takeWhile p = xs ++ ys.takeWhile p := by
  induction xs with
  | nil => rfl
  | cons c t ih =>
    rw [List.cons_append, List.takeWhile_cons, h c (by simp)]
    simp [ih (fun d hd => h d (by simp [hd]))]

theorem takeWhile_mem {p : Char → Bool} {l : List Char} {c : Char}
    (h : c ∈ l.takeWhile p) : p c = true := by
  induction l with
  | nil => simp at h
  | cons a t ih =>
    rw [List.takeWhile_cons] at h
    by_cases ha : p a = true
    · rw [ha, if_pos rfl] at h
      rcases List.mem_cons.mp h with rfl | hm
      · exact ha
      · exact ih hm
    · rw [Bool.not_eq_true] at ha
      rw [ha] at h
      simp at h

theorem dropWhile_head_false {p : Char → Bool} {l : List Char} {c : Char} {r : List Char}
    (h : l.dropWhile p = c :: r) : p c = false := by
  induction l with
  | nil => simp at h
  | cons a t ih =>
    rw [List.dropWhile_cons] at h
    by_cases ha : p a = true
    · rw [ha, if_pos rfl] at h
      exact ih h
    · rw [Bool.not_eq_true] at ha
      rw [ha] at h
      simp only [Bool.false_eq_true, if_false] at h
      cases h
      exact ha

theorem collapseWS_split (t : List Char) :
    collapseWS t = t.takeWhile (fun d => !isWSChar d) ++
      collapseWS (t.dropWhile (fun d => !isWSChar d)) := by
  induction t with
  | nil => rfl
  | cons c t ih =>
    rw [List.takeWhile_cons, List.dropWhile_cons]
    by_cases hc : isWSChar c = true
    · rw [show (!isWSChar c) = false by simp [hc]]
      simp only [Bool.false_eq_true, if_false, List.nil_append]
    · rw [Bool.not_eq_true] at hc
      rw [show (!isWSChar c) = true by simp [hc]]
      rw [collapseWS, hc]
      simp only [Bool.false_eq_true, if_false, if_true, List.cons_append, List.cons.injEq,
        true_and]
      exact ih

theorem words_collapseWS (l : List Char) : words (collapseWS l) = words l := by
  have H : ∀ n (l : List Char), l.length = n → words (collapseWS l) = words l := by
    intro n
    induction n using Nat.strong_induction_on with
    | _ n ih =>
      intro l hn
      cases l with
      | nil => rw [collapseWS]
      | cons c t =>
        by_cases hc : isWSChar c = true
        · rw [collapseWS, hc]
          simp only [if_true]
          rw [words_cons_ws _ (show isWSChar ' ' = true by decide)]
          rw [ih (t.dropWhile isWSChar).length
            (by rw [← hn]
                simp only [List.length_cons]
                exact Nat.lt_succ_of_le (length_dropWhile_le' _ t)) _ rfl]
          rw [words_dropWhile_ws, words_cons_ws _ hc]
        · rw [Bool.not_eq_true] at hc
          rw [collapseWS, hc]
          simp only [Bool.false_eq_true, if_false]
          rw [words_cons_not_ws _ hc, words_cons_not_ws _ hc]
          have hsplit := collapseWS_split t
          have htw : ∀ d ∈ t.takeWhile (fun d => !isWSChar d),
              (fun d => !isWSChar d) d = true := fun d hd => takeWhile_mem hd
          have h1 : (collapseWS t).takeWhile (fun d => !isWSChar d) =
              t.takeWhile (fun d => !isWSChar d) := by
            rw [hsplit, takeWhile_append_all _ htw]
            cases hdw : t.dropWhile (fun d => !isWSChar d) with
            | nil => rw [collapseWS]; simp
            | cons d r =>
              have hd : isWSChar d = true := by simpa using dropWhile_head_false hdw
              rw [collapseWS, hd]
              simp only [if_true, List.takeWhile_cons]
              rw [if_neg (show ¬((!isWSChar ' ') = true) by decide)]
              simp
          have h2 : (collapseWS t).dropWhile (fun d => !isWSChar d) =
              collapseWS (t.dropWhile (fun d => !isWSChar d)) := by
            rw [hsplit, dropWhile_append_all _ htw]
            cases hdw : t.dropWhile (fun d => !isWSChar d) with
            | nil => rw [collapseWS]; simp
            | cons d r =>
              have hd : isWSChar d = true := by simpa using dropWhile_head_false hdw
              rw [collapseWS, hd]
              simp only [if_true, List.dropWhile_cons]
              rw [if_neg (show ¬((!isWSChar ' ') = true) by decide)]
          rw [h1, h2]
          rw [ih (t.dropWhile (fun d => !isWSChar d)).length
            (by rw [← hn]
                simp only [List.length_cons]
                exact Nat.lt_succ_of_le (length_dropWhile_le' _ t)) _ rfl]
  exact H l.length l rfl

theorem words_pyStrip (l : List Char) : words (pyStrip l) = words l := by
  unfold pyStrip
  have hmem : ∀ c ∈ ((l.dropWhile isWSChar).reverse.takeWhile isWSChar).reverse,
      isWSChar c = true := fun c hc => takeWhile_mem (List.mem_reverse.mp hc)
  have hdecomp : l.dropWhile isWSChar =
      ((l.dropWhile isWSChar).reverse.dropWhile isWSChar).reverse ++
        ((l.dropWhile isWSChar).reverse.takeWhile isWSChar).reverse := by
    conv_rhs => rw [← List.reverse_append, List.takeWhile_append_dropWhile,
      List.reverse_reverse]
  have h1 : words (l.dropWhile isWSChar) =
      words (((l.dropWhile isWSChar).reverse.dropWhile isWSChar).reverse) := by
    conv_lhs => rw [hdecomp]
    exact words_append_ws _ hmem
  rw [← h1, words_dropWhile_ws]

/-- The final `split()` sees through the last whitespace-normalisation
steps of the pipeline. -/
theorem words_norm (l : List Char) : words (collapseWS (pyStrip l)) = words l := by
  rw [words_collapseWS, words_pyStrip]

/-! ## Chains of adjacent characters -/

theorem chain'_of_all_fst {p q : Char → Bool} {l : List Char}
    (h : ∀ c ∈ l, p c = false) :
    List.Chain' (fun a b => ¬(p a = true ∧ q b = true)) l := by
  induction l with
  | nil => exact List.chain'_nil
  | cons c t ih =>
    rw [List.chain'_cons']
    refine ⟨?_, ih (fun d hd => h d (List.mem_cons_of_mem _ hd))⟩
    intro y _ hcontra
    rw [h c (List.mem_cons_self c t)] at hcontra
    simp at hcontra

theorem chain'_of_all_snd {p q : Char → Bool} {l : List Char}
    (h : ∀ c ∈ l.tail, q c = false) :
    List.Chain' (fun a b => ¬(p a = true ∧ q b = true)) l := by
  induction l with
  | nil => exact List.chain'_nil
  | cons c t ih =>
    rw [List.chain'_cons']
    refine ⟨?_, ih (fun d hd => h d (List.mem_of_mem_tail hd))⟩
    intro y hy hcontra
    rw [h y (List.mem_of_mem_head? hy)] at hcontra
    simp at hcontra

/-! ## Structure of separator-joined strings -/

theorem joinSep_head? {sep : Char} {x : List Char} (parts : List (List Char)) (hx : x ≠ []) :
    (joinSep sep (x :: parts)).head? = x.head? := by
  cases parts with
  | nil => rfl
  | cons y t =>
    cases x with
    | nil => exact absurd rfl hx
    | cons a r => rfl

theorem chain'_joinSep {R : Char → Char → Prop} {sep : Char} {parts : List (List Char)}
    (hne : ∀ w ∈ parts, w ≠ [])
    (hch : ∀ w ∈ parts, List.Chain' R w)
    (hsl : ∀ w ∈ parts, ∀ l ∈ w.getLast?, R l sep)
    (hsh : ∀ w ∈ parts, ∀ h ∈ w.head?, R sep h) :
    List.Chain' R (joinSep sep parts) := by
  induction parts with
  | nil => exact List.chain'_nil
  | cons x rest ih =>
    cases rest with
    | nil => exact hch x (by simp)
    | cons y t =>
      rw [show joinSep sep (x :: y :: t) = x ++ sep :: joinSep sep (y :: t) from rfl]
      rw [List.chain'_append]
      refine ⟨hch x (by simp), ?_, ?_⟩
      · rw [List.chain'_cons']
        constructor
        · intro h2 hh2
          rw [joinSep_head? t (hne y (by simp))] at hh2
          exact hsh y (by simp) h2 hh2
        · exact ih (fun w hw => hne w (by simp [hw])) (fun w hw => hch w (by simp [hw]))
            (fun w hw => hsl w (by simp [hw])) (fun w hw => hsh w (by simp [hw]))
      · intro lx hlx h2 hh2
        simp only [List.head?_cons, Option.mem_def, Option.some.injEq] at hh2
        subst hh2
        exact hsl x (by simp) lx hlx

theorem mem_joinSep {sep : Char} {parts : List (List Char)} {c : Char}
    (h : c ∈ joinSep sep parts) : c = sep ∨ ∃ w ∈ parts, c ∈ w := by
  induction parts with
  | nil => simp [joinSep] at h
  | cons x rest ih =>
    cases rest with
    | nil => exact Or.inr ⟨x, by simp, h⟩
    | cons y t =>
      rw [show joinSep sep (x :: y :: t) = x ++ sep :: joinSep sep (y :: t) from rfl] at h
      rcases List.mem_append.mp h with hm | hm
      · exact Or.inr ⟨x, by simp, hm⟩
      · rcases List.mem_cons.mp hm with rfl | hm2
        · exact Or.inl rfl
        · rcases ih hm2 with h1 | ⟨w, hw, hcw⟩
          · exact Or.inl h1
          · exact Or.inr ⟨w, by simp [hw], hcw⟩

/-! ## Identity of the whitespace normalisations on tidy strings -/

theorem pyStrip_eq_of_ends {l : List Char}
    (h1 : ∀ c ∈ l.head?, isWSChar c = false)
    (h2 : ∀ c ∈ l.getLast?, isWSChar c = false) : pyStrip l = l := by
  unfold pyStrip
  have hd : l.dropWhile isWSChar = l := by
    cases l with
    | nil => rfl
    | cons c t =>
      rw [List.dropWhile_cons, h1 c rfl]
      simp
  rw [hd]
  have hr : l.reverse.dropWhile isWSChar = l.reverse := by
    cases hrev : l.reverse with
    | nil => rfl
    | cons c t =>
      have hcl : c ∈ l.getLast? := by
        rw [← List.head?_reverse, hrev]
        rfl
      rw [List.dropWhile_cons, h2 c hcl]
      simp
  rw [hr, List.reverse_reverse]

theorem collapseWS_eq_self {cs : List Char}
    (hch : List.Chain' (fun a b => ¬(isWSChar a = true ∧ isWSChar b = true)) cs)
    (hsp : ∀ c ∈ cs, isWSChar c = true → c = ' ') :
    collapseWS cs = cs := by
  induction cs with
  | nil => rw [collapseWS]
  | cons c t ih =>
    rw [collapseWS]
    by_cases hc : isWSChar c = true
    · rw [hc]
      simp only [if_true]
      have hcsp : c = ' ' := hsp c (by simp) hc
      have hdw : t.dropWhile isWSChar = t := by
        cases t with
        | nil => rfl
        | cons d r =>
          have hR : ¬(isWSChar c = true ∧ isWSChar d = true) := (List.chain'_cons.mp hch).1
          have hd : isWSChar d = false := by
            by_contra hdd
            rw [Bool.not_eq_false] at hdd
            exact hR ⟨hc, hdd⟩
          rw [List.dropWhile_cons, hd]
          simp
      rw [hdw, hcsp]
      rw [ih hch.tail (fun d hd hw => hsp d (by simp [hd]) hw)]
    · rw [Bool.not_eq_true] at hc
      rw [hc]
      simp only [Bool.false_eq_true, if_false]
      rw [ih hch.tail (fun d hd hw => hsp d (by simp [hd]) hw)]

/-! ## Every regex number match ends in a digit -/

theorem digits_split_last {l : List Char} (hne : l ≠ [])
    (hd : ∀ c ∈ l, isDigitChar c = true) :
    ∃ pre d, l = pre ++ [d] ∧ isDigitChar d = true := by
  refine ⟨l.dropLast, l.getLast hne, ?_, hd _ (List.getLast_mem hne)⟩
  rw [List.dropLast_append_getLast hne]

theorem take_takeWhile_self (p : Char → Bool) (l : List Char) :
    l.take (l.takeWhile p).length = l.takeWhile p :=
  ((List.prefix_iff_eq_take.mp (List.takeWhile_prefix p)).symm)

theorem numLenCore_take {cs0 : List Char} {n : Nat} (h : numLenCore cs0 = some n) :
    ∃ pre d, cs0.take n = pre ++ [d] ∧ isDigitChar d = true := by
  unfold numLenCore at h
  have htw : ∀ c ∈ cs0.takeWhile isDigitChar, isDigitChar c = true :=
    fun c hc => takeWhile_mem hc
  split at h
  case _ t heq =>
    split at h
    case isTrue hb =>
      cases h
      obtain ⟨pre2, d, hsplit2, hd⟩ :=
        @digits_split_last (t.takeWhile isDigitChar)
          (by intro hnil; rw [hnil] at hb; simp at hb) (fun c hc => takeWhile_mem hc)
      refine ⟨cs0.takeWhile isDigitChar ++ '.' :: pre2, d, ?_, hd⟩
      rw [show (cs0.takeWhile isDigitChar).length + 1 + (t.takeWhile isDigitChar).length =
        (cs0.takeWhile isDigitChar).length + (1 + (t.takeWhile isDigitChar).length) from by
          omega]
      rw [List.take_add, take_takeWhile_self, heq]
      rw [show 1 + (t.takeWhile isDigitChar).length = (t.takeWhile isDigitChar).length + 1
        from by omega]
      rw [List.take_succ_cons, take_takeWhile_self, hsplit2]
      simp
    case isFalse =>
      split at h
      case isTrue ha =>
        cases h
        obtain ⟨pre, d, hsplit, hd⟩ :=
          @digits_split_last (cs0.takeWhile isDigitChar)
            (by intro hnil; rw [hnil] at ha; simp at ha) htw
        exact ⟨pre, d, by rw [take_takeWhile_self, hsplit], hd⟩
      case isFalse => cases h
  case _ heq =>
    split at h
    case isTrue ha =>
      cases h
      obtain ⟨pre, d, hsplit, hd⟩ :=
        @digits_split_last (cs0.takeWhile isDigitChar)
          (by intro hnil; rw [hnil] at ha; simp at ha) htw
      exact ⟨pre, d, by rw [take_takeWhile_self, hsplit], hd⟩
    case isFalse => cases h

theorem numLen_take {cs : List Char} {n : Nat} (h : numLen cs = some n) :
    ∃ pre d, cs.take n = pre ++ [d] ∧ isDigitChar d = true := by
  unfold numLen at h
  split at h
  case _ c t =>
    split at h
    case isTrue hs =>
      rw [Option.map_eq_some'] at h
      obtain ⟨m, hm, rfl⟩ := h
      obtain ⟨pre, d, htake, hd⟩ := numLenCore_take hm
      refine ⟨c :: pre, d, ?_, hd⟩
      rw [List.take_succ_cons, htake]
      rfl
    case isFalse => exact numLenCore_take h
  case _ => cases h

/-! ## The concatenated-number splitter is the identity on tidy strings -/

theorem pairMatch_none_of_chain {cs : List Char}
    (h : List.Chain' (fun a b => ¬(isDigitChar a = true ∧ isSignChar b = true)) cs) :
    pairMatch cs = none := by
  unfold pairMatch
  split
  · rfl
  rename_i n1 hn1
  split
  · rename_i e rest heq
    split
    · rename_i hsign
      obtain ⟨pre, d, htake, hd⟩ := numLen_take hn1
      have hcs : cs = (pre ++ [d]) ++ e :: rest := by
        rw [← htake, ← heq, List.take_append_drop]
      rw [hcs, List.chain'_append] at h
      have hlast : d ∈ (pre ++ [d]).getLast? := by
        rw [List.getLast?_append]
        rfl
      exact ((h.2.2 d hlast e rfl) ⟨hd, hsign⟩).elim
    · rfl
  · rfl

theorem splitConcat_cons_none {c : Char} {t : List Char} (h : pairMatch (c :: t) = none) :
    splitConcat (c :: t) = c :: splitConcat t := by
  rw [splitConcat]
  split
  case _ n1 n2 hm =>
    rw [h] at hm
    exact Option.noConfusion hm
  case _ => rfl

theorem splitConcat_eq_self {cs : List Char}
    (h : List.Chain' (fun a b => ¬(isDigitChar a = true ∧ isSignChar b = true)) cs) :
    splitConcat cs = cs := by
  induction cs with
  | nil => rw [splitConcat]
  | cons c t ih =>
    rw [splitConcat_cons_none (pairMatch_none_of_chain h), ih h.tail]

/-! ## Tokens of a reserialised command list -/

/-- The tokens that the tokeniser recovers from the serialised text of one
command. -/
def cmdTokens : PathCmd → List (List Char)
  | PathCmd.moveTo x y => [['M'], fmt2 x, fmt2 y]
  | PathCmd.lineTo x y => [['L'], fmt2 x, fmt2 y]
  | PathCmd.hline x _ => [['H'], fmt2 x]
  | PathCmd.vline y _ => [['V'], fmt2 y]
  | PathCmd.curveTo x1 y1 x2 y2 x y =>
      [['C'], fmt2 x1, fmt2 y1, fmt2 x2, fmt2 y2, fmt2 x, fmt2 y]
  | PathCmd.close => [['Z']]

theorem getLast?_cons_of_ne_nil {a : Char} {J : List Char} (h : J ≠ []) :
    (a :: J).getLast? = J.getLast? := by
  cases J with
  | nil => exact absurd rfl h
  | cons b r => rw [List.getLast?_cons_cons]

theorem getLast?_append_right {A B : List Char} (h : B ≠ []) :
    (A ++ B).getLast? = B.getLast? := by
  rw [List.getLast?_append]
  cases hb : B.getLast? with
  | none =>
    rw [List.getLast?_eq_none_iff] at hb
    exact absurd hb h
  | some z => rfl

theorem mem_of_getLast? {l : List Char} {c : Char} (h : c ∈ l.getLast?) : c ∈ l := by
  induction l with
  | nil => simp at h
  | cons a t ih =>
    cases t with
    | nil =>
      simp only [List.getLast?_singleton, Option.mem_def, Option.some.injEq] at h
      simp [h]
    | cons b r =>
      rw [List.getLast?_cons_cons] at h
      exact List.mem_cons_of_mem _ (ih h)

theorem joinSep_ne_nil {sep : Char} {x : List Char} (parts : List (List Char))
    (hx : x ≠ []) : joinSep sep (x :: parts) ≠ [] := by
  cases parts with
  | nil => exact hx
  | cons y t =>
    rw [show joinSep sep (x :: y :: t) = x ++ sep :: joinSep sep (y :: t) from rfl]
    simp

theorem joinSep_getLast? {sep : Char} (x : List Char) (parts : List (List Char))
    (hne : ∀ w ∈ x :: parts, w ≠ []) :
    ∃ w, w ∈ x :: parts ∧ (joinSep sep (x :: parts)).getLast? = w.getLast? := by
  induction parts generalizing x with
  | nil => exact ⟨x, by simp, rfl⟩
  | cons y t ih =>
    obtain ⟨w, hw, hlast⟩ := ih y (fun v hv => hne v (List.mem_cons_of_mem _ hv))
    refine ⟨w, List.mem_cons_of_mem _ hw, ?_⟩
    rw [show joinSep sep (x :: y :: t) = x ++ sep :: joinSep sep (y :: t) from rfl]
    rw [getLast?_append_right (by simp), getLast?_cons_of_ne_nil
      (joinSep_ne_nil t (hne y (by simp)))]
    exact hlast

theorem map_id_of_forall {f : Char → Char} {l : List Char} (h : ∀ c ∈ l, f c = c) :
    l.map f = l := by
  induction l with
  | nil => rfl
  | cons c t ih =>
    rw [List.map_cons, h c (by simp), ih (fun d hd => h d (by simp [hd]))]

theorem map_commaToSpace_fmt2 (q : ℚ) : (fmt2 q).map commaToSpace = fmt2 q :=
  map_id_of_forall (fmt2_no_comma q)

/-- The facts about every token of a serialised command that the tokenisation
argument needs: tokens are nonempty and whitespace-free, each is a single
command letter or letter-free, and no token has a sign character past its
first position. -/
theorem cmdTokens_spec (cmd : PathCmd) : ∀ w ∈ cmdTokens cmd,
    w ≠ [] ∧ (∀ c ∈ w, isWSChar c = false) ∧
      ((∃ L, w = [L]) ∨ (∀ c ∈ w, isCmdLetter c = false)) ∧
      (∀ c ∈ w.tail, isSignChar c = false) := by
  have hfmt : ∀ q : ℚ, fmt2 q ≠ [] ∧ (∀ c ∈ fmt2 q, isWSChar c = false) ∧
      ((∃ L, fmt2 q = [L]) ∨ (∀ c ∈ fmt2 q, isCmdLetter c = false)) ∧
      (∀ c ∈ (fmt2 q).tail, isSignChar c = false) :=
    fun q => ⟨fmt2_ne_nil q, fmt2_no_ws q, Or.inr (fmt2_no_letter q), fmt2_tail_no_sign q⟩
  have hletter : ∀ L : Char, isWSChar L = false →
      ([L] ≠ [] ∧ (∀ c ∈ [L], isWSChar c = false) ∧
        ((∃ L', [L] = [L']) ∨ (∀ c ∈ [L], isCmdLetter c = false)) ∧
        (∀ c ∈ ([L] : List Char).tail, isSignChar c = false)) := by
    intro L hL
    refine ⟨by simp, ?_, Or.inl ⟨L, rfl⟩, by simp⟩
    intro c hc
    rw [List.mem_singleton] at hc
    subst hc
    exact hL
  intro w hw
  cases cmd with
  | moveTo x y =>
    simp only [cmdTokens, List.mem_cons, List.not_mem_nil, or_false] at hw
    rcases hw with rfl | rfl | rfl
    · exact hletter 'M' (by decide)
    · exact hfmt x
    · exact hfmt y
  | lineTo x y =>
    simp only [cmdTokens, List.mem_cons, List.not_mem_nil, or_false] at hw
    rcases hw with rfl | rfl | rfl
    · exact hletter 'L' (by decide)
    · exact hfmt x
    · exact hfmt y
  | hline x rel =>
    simp only [cmdTokens, List.mem_cons, List.not_mem_nil, or_false] at hw
    rcases hw with rfl | rfl
    · exact hletter 'H' (by decide)
    · exact hfmt x
  | vline y rel =>
    simp only [cmdTokens, List.mem_cons, List.not_mem_nil, or_false] at hw
    rcases hw with rfl | rfl
    · exact hletter 'V' (by decide)
    · exact hfmt y
  | curveTo x1 y1 x2 y2 x y =>
    simp only [cmdTokens, List.mem_cons, List.not_mem_nil, or_false] at hw
    rcases hw with rfl | rfl | rfl | rfl | rfl | rfl | rfl
    · exact hletter 'C' (by decide)
    · exact hfmt x1
    · exact hfmt y1
    · exact hfmt x2
    · exact hfmt y2
    · exact hfmt x
    · exact hfmt y
  | close =>
    simp only [cmdTokens, List.mem_cons, List.not_mem_nil, or_false] at hw
    rcases hw with rfl
    exact hletter 'Z' (by decide)

/-! ## Comma replacement turns the serialised text into space-joined tokens -/

theorem map_joinSep (f : Char → Char) (sep : Char) (parts : List (List Char)) :
    (joinSep sep parts).map f = joinSep (f sep) (parts.map (List.map f)) := by
  induction parts with
  | nil => rfl
  | cons x rest ih =>
    cases rest with
    | nil => rfl
    | cons y t =>
      rw [show joinSep sep (x :: y :: t) = x ++ sep :: joinSep sep (y :: t) from rfl]
      rw [List.map_append, List.map_cons, ih]
      rfl

theorem cmdPart_map (cmd : PathCmd) :
    (cmdPart cmd).map commaToSpace = joinSep ' ' (cmdTokens cmd) := by
  cases cmd <;>
    simp [cmdPart, cmdTokens, joinSep, map_commaToSpace_fmt2, commaToSpace]

theorem joinSep_append {sep : Char} {x z : List (List Char)} (hx : x ≠ []) (hz : z ≠ []) :
    joinSep sep (x ++ z) = joinSep sep x ++ sep :: joinSep sep z := by
  induction x with
  | nil => exact absurd rfl hx
  | cons a x ih =>
    cases x with
    | nil =>
      cases z with
      | nil => exact absurd rfl hz
      | cons b t => rfl
    | cons a2 x2 =>
      rw [show ((a :: a2 :: x2) ++ z) = a :: ((a2 :: x2) ++ z) from rfl]
      rw [show joinSep sep (a :: ((a2 :: x2) ++ z)) =
        a ++ sep :: joinSep sep ((a2 :: x2) ++ z) from rfl]
      rw [ih (by simp)]
      rw [show joinSep sep (a :: a2 :: x2) = a ++ sep :: joinSep sep (a2 :: x2) from rfl]
      simp [List.append_assoc]

theorem joinSep_flatten {sep : Char} (ll : List (List (List Char)))
    (h : ∀ x ∈ ll, x ≠ []) :
    joinSep sep (ll.map (joinSep sep)) = joinSep sep ll.flatten := by
  induction ll with
  | nil => rfl
  | cons x rest ih =>
    cases rest with
    | nil =>
      have hx : (x :: ([] : List (List (List Char)))).flatten = x := by simp
      rw [hx]
      rfl
    | cons y t =>
      have hflat : (y :: t).flatten ≠ [] := by
        rw [show (y :: t).flatten = y ++ t.flatten from rfl]
        intro hc
        rcases List.append_eq_nil.mp hc with ⟨h1, _⟩
        exact h y (by simp) h1
      rw [List.map_cons, List.map_cons,
        show joinSep sep (joinSep sep x :: joinSep sep y :: (t.map (joinSep sep))) =
          joinSep sep x ++ sep :: joinSep sep (joinSep sep y :: t.map (joinSep sep)) from rfl,
        ← List.map_cons, ih (fun v hv => h v (List.mem_cons_of_mem _ hv))]
      rw [show (x :: y :: t).flatten = x ++ (y :: t).flatten from rfl]
      rw [joinSep_append (h x (by simp)) hflat]

theorem flatten_map_eq_flatMap (f : PathCmd → List (List Char)) (l : List PathCmd) :
    (l.map f).flatten = l.flatMap f := by
  induction l with
  | nil => rfl
  | cons c t ih => simp [ih]

theorem cmdTokens_ne_nil (cmd : PathCmd) : cmdTokens cmd ≠ [] := by
  cases cmd <;> simp [cmdTokens]

theorem serial_map_comma (cmds : List PathCmd) :
    (joinSep ' ' (cmds.map cmdPart)).map commaToSpace =
      joinSep ' ' (cmds.flatMap cmdTokens) := by
  rw [map_joinSep]
  rw [show commaToSpace ' ' = ' ' from rfl]
  rw [show (cmds.map cmdPart).map (List.map commaToSpace) =
    cmds.map (fun c => (cmdPart c).map commaToSpace) from by rw [List.map_map]; rfl]
  rw [show (fun c => (cmdPart c).map commaToSpace) = (fun c => joinSep ' ' (cmdTokens c)) from
    funext (fun c => cmdPart_map c)]
  rw [show cmds.map (fun c => joinSep ' ' (cmdTokens c)) =
    (cmds.map cmdTokens).map (joinSep ' ') from by rw [List.map_map]; rfl]
  rw [joinSep_flatten _ (by
    intro x hx
    rcases List.mem_map.mp hx with ⟨c, _, rfl⟩
    exact cmdTokens_ne_nil c)]
  rw [flatten_map_eq_flatMap]

/-! ## Letter expansion and the final split -/

theorem flatMap_expand_id {w : List Char} (h : ∀ c ∈ w, isCmdLetter c = false) :
    w.flatMap expandLetter = w := by
  induction w with
  | nil => rfl
  | cons c t ih =>
    rw [List.flatMap_cons]
    rw [show expandLetter c = [c] from by unfold expandLetter; rw [h c (by simp)]; simp]
    rw [ih (fun d hd => h d (by simp [hd]))]
    rfl

theorem words_expand_token {w : List Char}
    (h : (∃ L, w = [L] ∧ isWSChar L = false) ∨
      (w ≠ [] ∧ (∀ c ∈ w, isWSChar c = false) ∧ (∀ c ∈ w, isCmdLetter c = false))) :
    words (w.flatMap expandLetter) = [w] := by
  rcases h with ⟨L, rfl, hL⟩ | ⟨hne, hws, hlet⟩
  · rw [show ([L] : List Char).flatMap expandLetter = expandLetter L from by simp]
    unfold expandLetter
    by_cases hc : isCmdLetter L = true
    · rw [if_pos hc]
      rw [show ([' ', L, ' '] : List Char) = ' ' :: L :: [' '] from rfl]
      rw [words_cons_ws _ (by decide)]
      rw [words_cons_not_ws _ hL]
      rw [show List.takeWhile (fun d => !isWSChar d) [' '] = [] from by decide]
      rw [show List.dropWhile (fun d => !isWSChar d) [' '] = [' '] from by decide]
      rw [words_cons_ws _ (by decide), words]
    · rw [if_neg hc]
      exact words_single (by simp)
        (by intro c hc2; rw [List.mem_singleton] at hc2; subst hc2; exact hL)
  · rw [flatMap_expand_id hlet]
    exact words_single hne hws

theorem words_expand_joinSep (toks : List (List Char))
    (h : ∀ w ∈ toks, (∃ L, w = [L] ∧ isWSChar L = false) ∨
      (w ≠ [] ∧ (∀ c ∈ w, isWSChar c = false) ∧ (∀ c ∈ w, isCmdLetter c = false))) :
    words ((joinSep ' ' toks).flatMap expandLetter) = toks := by
  induction toks with
  | nil =>
    rw [show ((joinSep ' ' ([] : List (List Char))).flatMap expandLetter) =
      ([] : List Char) from rfl]
    rw [words]
  | cons w rest ih =>
    cases rest with
    | nil =>
      rw [show joinSep ' ' [w] = w from rfl]
      rw [words_expand_token (h w (by simp))]
    | cons y t =>
      rw [show joinSep ' ' (w :: y :: t) = w ++ ' ' :: joinSep ' ' (y :: t) from rfl]
      rw [List.flatMap_append, List.flatMap_cons]
      rw [show expandLetter ' ' = [' '] from by decide]
      rw [show ([' '] ++ (joinSep ' ' (y :: t)).flatMap expandLetter) =
        ' ' :: (joinSep ' ' (y :: t)).flatMap expandLetter from rfl]
      rw [words_append_space]
      rw [words_expand_token (h w (by simp)), ih (fun v hv => h v (by simp [hv]))]
      rfl

/-! ## Tokenising a reserialised command list recovers its tokens -/

theorem commaToSpace_ws {c : Char} (h : isWSChar c = true) : commaToSpace c = c := by
  unfold commaToSpace
  by_cases hc : c = ','
  · subst hc
    exact absurd h (by decide)
  · rw [if_neg hc]

theorem tokenize_serial (cmds : List PathCmd) :
    tokenizeChars (commandsToPathString cmds).data = cmds.flatMap cmdTokens := by
  have toks_spec : ∀ w ∈ cmds.flatMap cmdTokens,
      w ≠ [] ∧ (∀ c ∈ w, isWSChar c = false) ∧
        ((∃ L, w = [L]) ∨ (∀ c ∈ w, isCmdLetter c = false)) ∧
        (∀ c ∈ w.tail, isSignChar c = false) := by
    intro w hw
    rcases List.mem_flatMap.mp hw with ⟨cmd, _, hwc⟩
    exact cmdTokens_spec cmd w hwc
  have hT_head : ∀ c ∈ (joinSep ' ' (cmds.flatMap cmdTokens)).head?, isWSChar c = false := by
    cases htk : cmds.flatMap cmdTokens with
    | nil => intro c hc; simp [joinSep] at hc
    | cons x rest =>
      intro c hc
      rw [joinSep_head? rest (toks_spec x (by rw [htk]; simp)).1] at hc
      exact (toks_spec x (by rw [htk]; simp)).2.1 c (List.mem_of_mem_head? hc)
  have hT_last : ∀ c ∈ (joinSep ' ' (cmds.flatMap cmdTokens)).getLast?, isWSChar c = false := by
    cases htk : cmds.flatMap cmdTokens with
    | nil => intro c hc; simp [joinSep] at hc
    | cons x rest =>
      intro c hc
      obtain ⟨w, hw, hlast⟩ := @joinSep_getLast? ' ' x rest
        (fun v hv => (toks_spec v (by rw [htk]; exact hv)).1)
      rw [hlast] at hc
      exact (toks_spec w (by rw [htk]; exact hw)).2.1 c (mem_of_getLast? hc)
  have hT_chain_ws :
      List.Chain' (fun a b => ¬(isWSChar a = true ∧ isWSChar b = true))
        (joinSep ' ' (cmds.flatMap cmdTokens)) := by
    refine chain'_joinSep (fun w hw => (toks_spec w hw).1)
      (fun w hw => chain'_of_all_fst (toks_spec w hw).2.1) ?_ ?_
    · intro w hw l hl hcontra
      rw [(toks_spec w hw).2.1 l (mem_of_getLast? hl)] at hcontra
      simp at hcontra
    · intro w hw h2 hh2 hcontra
      rw [(toks_spec w hw).2.1 h2 (List.mem_of_mem_head? hh2)] at hcontra
      simp at hcontra
  have hT_chain_ds :
      List.Chain' (fun a b => ¬(isDigitChar a = true ∧ isSignChar b = true))
        (joinSep ' ' (cmds.flatMap cmdTokens)) := by
    refine chain'_joinSep (fun w hw => (toks_spec w hw).1)
      (fun w hw => chain'_of_all_snd (toks_spec w hw).2.2.2) ?_ ?_
    · intro w hw l hl hcontra
      exact absurd hcontra.2 (by decide)
    · intro w hw h2 hh2 hcontra
      exact absurd hcontra.1 (by decide)
  have hmap := serial_map_comma cmds
  have hS_head : ∀ c ∈ (joinSep ' ' (cmds.map cmdPart)).head?, isWSChar c = false := by
    intro c hc
    by_contra hcc
    rw [Bool.not_eq_false] at hcc
    have h1 : commaToSpace c ∈ ((joinSep ' ' (cmds.map cmdPart)).map commaToSpace).head? := by
      rw [List.head?_map]
      rw [Option.mem_def] at hc ⊢
      rw [hc]
      rfl
    rw [hmap] at h1
    have := hT_head _ h1
    rw [commaToSpace_ws hcc] at this
    rw [this] at hcc
    exact Bool.noConfusion hcc
  have hS_last : ∀ c ∈ (joinSep ' ' (cmds.map cmdPart)).getLast?, isWSChar c = false := by
    intro c hc
    by_contra hcc
    rw [Bool.not_eq_false] at hcc
    have h1 : commaToSpace c ∈
        ((joinSep ' ' (cmds.map cmdPart)).map commaToSpace).getLast? := by
      rw [List.getLast?_map]
      rw [Option.mem_def] at hc ⊢
      rw [hc]
      rfl
    rw [hmap] at h1
    have := hT_last _ h1
    rw [commaToSpace_ws hcc] at this
    rw [this] at hcc
    exact Bool.noConfusion hcc
  have hS_chain :
      List.Chain' (fun a b => ¬(isWSChar a = true ∧ isWSChar b = true))
        (joinSep ' ' (cmds.map cmdPart)) := by
    have h1 : List.Chain' (fun a b => ¬(isWSChar a = true ∧ isWSChar b = true))
        ((joinSep ' ' (cmds.map cmdPart)).map commaToSpace) := by
      rw [hmap]
      exact hT_chain_ws
    rw [List.chain'_map] at h1
    refine h1.imp ?_
    intro a b hab hcontra
    exact hab ⟨by rw [commaToSpace_ws hcontra.1]; exact hcontra.1,
      by rw [commaToSpace_ws hcontra.2]; exact hcontra.2⟩
  have hS_sp : ∀ c ∈ joinSep ' ' (cmds.map cmdPart), isWSChar c = true → c = ' ' := by
    intro c hc hw
    have h1 : commaToSpace c ∈ joinSep ' ' (cmds.flatMap cmdTokens) := by
      rw [← hmap]
      exact List.mem_map_of_mem _ hc
    rw [commaToSpace_ws hw] at h1
    rcases mem_joinSep h1 with h2 | ⟨w, hw2, hcw⟩
    · exact h2
    · rw [(toks_spec w hw2).2.1 c hcw] at hw
      exact Bool.noConfusion hw
  show words (collapseWS (pyStrip ((splitConcat
    (((collapseWS (pyStrip (joinSep ' ' (cmds.map cmdPart)))).map commaToSpace))).flatMap
      expandLetter))) = cmds.flatMap cmdTokens
  rw [pyStrip_eq_of_ends hS_head hS_last, collapseWS_eq_self hS_chain hS_sp, hmap,
    splitConcat_eq_self hT_chain_ds, words_norm]
  refine words_expand_joinSep _ ?_
  intro w hw
  obtain ⟨hne, hws, hcase, _⟩ := toks_spec w hw
  rcases hcase with ⟨L, rfl⟩ | hnol
  · exact Or.inl ⟨L, rfl, hws L (by simp)⟩
  · exact Or.inr ⟨hne, hws, hnol⟩

/-! ## Parsing the recovered tokens yields the rounded commands -/

theorem parseTokens_cmdTokens (cmds : List PathCmd) :
    ∀ cx cy, parseTokens cx cy (cmds.flatMap cmdTokens) = cmds.map normCmd := by
  induction cmds with
  | nil => intro cx cy; rfl
  | cons cmd rest ih =>
    intro cx cy
    rw [List.flatMap_cons]
    cases cmd with
    | moveTo x y =>
      rw [show cmdTokens (PathCmd.moveTo x y) ++ rest.flatMap cmdTokens =
        ['M'] :: fmt2 x :: fmt2 y :: rest.flatMap cmdTokens from rfl]
      rw [parseTokens_M_abs cx cy (round2 x) (round2 y) _ _ _
        (pyFloat_fmt2 x) (pyFloat_fmt2 y)]
      rw [ih (round2 x) (round2 y)]
      rfl
    | lineTo x y =>
      rw [show cmdTokens (PathCmd.lineTo x y) ++ rest.flatMap cmdTokens =
        ['L'] :: fmt2 x :: fmt2 y :: rest.flatMap cmdTokens from rfl]
      rw [parseTokens_L_abs cx cy (round2 x) (round2 y) _ _ _
        (pyFloat_fmt2 x) (pyFloat_fmt2 y)]
      rw [ih (round2 x) (round2 y)]
      rfl
    | hline x rel =>
      rw [show cmdTokens (PathCmd.hline x rel) ++ rest.flatMap cmdTokens =
        ['H'] :: fmt2 x :: rest.flatMap cmdTokens from rfl]
      rw [parseTokens_H_abs cx cy (round2 x) _ _ (pyFloat_fmt2 x)]
      rw [ih (round2 x) cy]
      rfl
    | vline y rel =>
      rw [show cmdTokens (PathCmd.vline y rel) ++ rest.flatMap cmdTokens =
        ['V'] :: fmt2 y :: rest.flatMap cmdTokens from rfl]
      rw [parseTokens_V_abs cx cy (round2 y) _ _ (pyFloat_fmt2 y)]
      rw [ih cx (round2 y)]
      rfl
    | curveTo x1 y1 x2 y2 x y =>
      rw [show cmdTokens (PathCmd.curveTo x1 y1 x2 y2 x y) ++ rest.flatMap cmdTokens =
        ['C'] :: fmt2 x1 :: fmt2 y1 :: fmt2 x2 :: fmt2 y2 :: fmt2 x :: fmt2 y ::
          rest.flatMap cmdTokens from rfl]
      rw [parseTokens_C_abs cx cy (round2 x1) (round2 y1) (round2 x2) (round2 y2)
        (round2 x) (round2 y) _ _ _ _ _ _ _ (pyFloat_fmt2 x1) (pyFloat_fmt2 y1)
        (pyFloat_fmt2 x2) (pyFloat_fmt2 y2) (pyFloat_fmt2 x) (pyFloat_fmt2 y)]
      rw [ih (round2 x) (round2 y)]
      rfl
    | close =>
      rw [show cmdTokens PathCmd.close ++ rest.flatMap cmdTokens =
        ['Z'] :: rest.flatMap cmdTokens from rfl]
      rw [parseTokens_Z cx cy _]
      rw [ih cx cy]
      rfl

/-- The reserialisation round trip: re-parsing the serialised text of a
command list yields the same commands with every coordinate rounded to two
decimals and the `H`/`V` relative flag reset. -/
theorem parse_serial_roundtrip (cmds : List PathCmd) :
    parsePathCommands (commandsToPathString cmds) = cmds.map normCmd := by
  unfold parsePathCommands
  rw [tokenize_serial]
  exact parseTokens_cmdTokens cmds 0 0

/-! ## Tokenising any space-joined tidy token string recovers the tokens -/

theorem tokenize_of_tokens (toks : List (List Char))
    (hspec : ∀ w ∈ toks, w ≠ [] ∧ (∀ c ∈ w, isWSChar c = false) ∧
      ((∃ L, w = [L]) ∨ (∀ c ∈ w, isCmdLetter c = false)) ∧
      (∀ c ∈ w.tail, isSignChar c = false) ∧ (∀ c ∈ w, c ≠ ',')) :
    tokenizeChars (joinSep ' ' toks) = toks := by
  have hhead : ∀ c ∈ (joinSep ' ' toks).head?, isWSChar c = false := by
    cases htk : toks with
    | nil => intro c hc; simp [joinSep] at hc
    | cons x rest =>
      intro c hc
      rw [joinSep_head? rest (hspec x (by rw [htk]; simp)).1] at hc
      exact (hspec x (by rw [htk]; simp)).2.1 c (List.mem_of_mem_head? hc)
  have hlast : ∀ c ∈ (joinSep ' ' toks).getLast?, isWSChar c = false := by
    cases htk : toks with
    | nil => intro c hc; simp [joinSep] at hc
    | cons x rest =>
      intro c hc
      obtain ⟨w, hw, hl⟩ := @joinSep_getLast? ' ' x rest
        (fun v hv => (hspec v (by rw [htk]; exact hv)).1)
      rw [hl] at hc
      exact (hspec w (by rw [htk]; exact hw)).2.1 c (mem_of_getLast? hc)
  have hchain_ws :
      List.Chain' (fun a b => ¬(isWSChar a = true ∧ isWSChar b = true))
        (joinSep ' ' toks) := by
    refine chain'_joinSep (fun w hw => (hspec w hw).1)
      (fun w hw => chain'_of_all_fst (hspec w hw).2.1) ?_ ?_
    · intro w hw l hl hcontra
      rw [(hspec w hw).2.1 l (mem_of_getLast? hl)] at hcontra
      simp at hcontra
    · intro w hw h2 hh2 hcontra
      rw [(hspec w hw).2.1 h2 (List.mem_of_mem_head? hh2)] at hcontra
      simp at hcontra
  have hchain_ds :
      List.Chain' (fun a b => ¬(isDigitChar a = true ∧ isSignChar b = true))
        (joinSep ' ' toks) := by
    refine chain'_joinSep (fun w hw => (hspec w hw).1)
      (fun w hw => chain'_of_all_snd (hspec w hw).2.2.2.1) ?_ ?_
    · intro w hw l hl hcontra
      exact absurd hcontra.2 (by decide)
    · intro w hw h2 hh2 hcontra
      exact absurd hcontra.1 (by decide)
  have hsp : ∀ c ∈ joinSep ' ' toks, isWSChar c = true → c = ' ' := by
    intro c hc hw
    rcases mem_joinSep hc with h2 | ⟨w, hw2, hcw⟩
    · exact h2
    · rw [(hspec w hw2).2.1 c hcw] at hw
      exact Bool.noConfusion hw
  have hmapid : (joinSep ' ' toks).map commaToSpace = joinSep ' ' toks := by
    refine map_id_of_forall ?_
    intro c hc
    rcases mem_joinSep hc with h2 | ⟨w, hw2, hcw⟩
    · subst h2; rfl
    · unfold commaToSpace
      rw [if_neg ((hspec w hw2).2.2.2.2 c hcw)]
  show words (collapseWS (pyStrip ((splitConcat
    (((collapseWS (pyStrip (joinSep ' ' toks))).map commaToSpace))).flatMap
      expandLetter))) = toks
  rw [pyStrip_eq_of_ends hhead hlast, collapseWS_eq_self hchain_ws hsp, hmapid,
    splitConcat_eq_self hchain_ds, words_norm]
  refine words_expand_joinSep _ ?_
  intro w hw
  obtain ⟨hne, hws, hcase, _, _⟩ := hspec w hw
  rcases hcase with ⟨L, rfl⟩ | hnol
  · exact Or.inl ⟨L, rfl, hws L (by simp)⟩
  · exact Or.inr ⟨hne, hws, hnol⟩

/-! ## Chunking lemmas -/

theorem chunkList_cons {n : Nat} (hn : n ≠ 0) (c : α) (t : List α) :
    chunkList n (c :: t) = (c :: t).take n :: chunkList n ((c :: t).drop n) := by
  rw [chunkList, if_neg hn]

theorem chunkList_flatten {n : Nat} (hn : 0 < n) (l : List α) :
    (chunkList n l).flatten = l := by
  have H : ∀ m (l : List α), l.length = m → (chunkList n l).flatten = l := by
    intro m
    induction m using Nat.strong_induction_on with
    | _ m ih =>
      intro l hm
      cases l with
      | nil => rw [chunkList]; rfl
      | cons c t =>
        rw [chunkList_cons (by omega), List.flatten_cons]
        rw [ih ((c :: t).drop n).length (by
          rw [← hm]
          simp only [List.length_drop, List.length_cons]
          omega) _ rfl]
        exact List.take_append_drop n (c :: t)
  exact H l.length l rfl

theorem chunkList_sizes {n : Nat} (hn : 0 < n) (l : List α) :
    ∀ ch ∈ chunkList n l, ch.length ≤ n := by
  have H : ∀ m (l : List α), l.length = m → ∀ ch ∈ chunkList n l, ch.length ≤ n := by
    intro m
    induction m using Nat.strong_induction_on with
    | _ m ih =>
      intro l hm ch hch
      cases l with
      | nil => rw [chunkList] at hch; simp at hch
      | cons c t =>
        rw [chunkList_cons (by omega)] at hch
        rcases List.mem_cons.mp hch with rfl | hmem
        · rw [List.length_take]
          omega
        · exact ih ((c :: t).drop n).length (by
            rw [← hm]
            simp only [List.length_drop, List.length_cons]
            omega) _ rfl ch hmem
  exact H l.length l rfl

theorem chunkList_nil_of_le {n : Nat} (l : List α) (h : l = []) : chunkList n l = [] := by
  subst h
  rw [chunkList]

/-- A 650-element list chunks at 300 into sizes 300, 300, 50. -/
theorem chunkList_650 (l : List α) (h : l.length = 650) :
    (chunkList 300 l).map List.length = [300, 300, 50] := by
  cases l with
  | nil => simp at h
  | cons c t =>
    simp only [List.length_cons] at h
    rw [chunkList_cons (by omega)]
    cases h2 : (c :: t).drop 300 with
    | nil =>
      have hl2 := congrArg List.length h2
      simp only [List.length_drop, List.length_cons, List.length_nil] at hl2
      omega
    | cons d r =>
      have hl2 := congrArg List.length h2
      simp only [List.length_drop, List.length_cons] at hl2
      rw [chunkList_cons (by omega)]
      cases h3 : (d :: r).drop 300 with
      | nil =>
        have hl3 := congrArg List.length h3
        simp only [List.length_drop, List.length_cons, List.length_nil] at hl3
        omega
      | cons e s =>
        have hl3 := congrArg List.length h3
        simp only [List.length_drop, List.length_cons] at hl3
        rw [chunkList_cons (by omega)]
        have h4 : (e :: s).drop 300 = [] := by
          rw [List.drop_eq_nil_iff]
          simp only [List.length_cons]
          omega
        rw [h4, chunkList_nil_of_le _ rfl]
        simp only [List.map_cons, List.map_nil, List.length_take, List.length_cons]
        rw [show min 300 (t.length + 1) = 300 from by omega,
          show min 300 (r.length + 1) = 300 from by omega,
          show min 300 (s.length + 1) = s.length + 1 from by omega,
          show s.length + 1 = 50 from by omega]

theorem cmdType_normCmd (c : PathCmd) : cmdType (normCmd c) = cmdType c := by
  cases c <;> rfl

/-- The drawing instructions of the reserialised chunks, concatenated in
order, are the instructions of the rounded original commands. -/
theorem split_chunks_instructions (n : Nat) (hn : 0 < n) (cs : List PathCmd) (ind : Nat) :
    ((chunkList n cs).map (fun ch => formatPathData (commandsToPathString ch) ind)).flatten =
      (cs.map normCmd).map (fun c => indentStr ind ++ emitCmd c) := by
  have hfmt : ∀ ch : List PathCmd, formatPathData (commandsToPathString ch) ind =
      (ch.map normCmd).map (fun c => indentStr ind ++ emitCmd c) := by
    intro ch
    unfold formatPathData
    rw [parse_serial_roundtrip]
  rw [show (fun ch => formatPathData (commandsToPathString ch) ind) =
    (fun ch : List PathCmd => (ch.map normCmd).map (fun c => indentStr ind ++ emitCmd c))
    from funext hfmt]
  rw [show (fun ch : List PathCmd => (ch.map normCmd).map (fun c => indentStr ind ++ emitCmd c)) =
    (fun ch : List PathCmd => ch.map ((fun c => indentStr ind ++ emitCmd c) ∘ normCmd))
    from funext (fun ch => by rw [List.map_map])]
  rw [← List.map_flatten, chunkList_flatten hn, List.map_map]

/-! ## Traversal lemmas for the XML model -/

theorem iterAll_eq (t : String) (a : List (String × String)) (x : Option String)
    (cs : List XElem) :
    iterAll (XElem.mk t a x cs) = XElem.mk t a x cs :: cs.flatMap iterAll := by
  rw [iterAll]
  congr 1
  rw [show cs.attach.flatMap (fun c => iterAll c.1) =
    (cs.attach.map (fun c => iterAll c.1)).flatten from rfl]
  rw [show cs.flatMap iterAll = (cs.map iterAll).flatten from rfl]
  congr 1
  have h2 : cs.attach.map (fun c => iterAll c.1) = (cs.attach.map Subtype.val).map iterAll := by
    rw [List.map_map]
    rfl
  rw [h2, List.attach_map_subtype_val]

theorem mem_iterAll_self (e : XElem) : e ∈ iterAll e := by
  cases e with
  | mk t a x cs =>
    rw [iterAll_eq]
    exact List.mem_cons_self _ _

theorem mem_iterAll_trans : ∀ (root g e : XElem),
    g ∈ iterAll root → e ∈ iterAll g → e ∈ iterAll root
  | XElem.mk t a x cs => by
    intro g e hg he
    rw [iterAll_eq] at hg ⊢
    rcases List.mem_cons.mp hg with rfl | hflat
    · rw [iterAll_eq] at he
      exact he
    · rcases List.mem_flatMap.mp hflat with ⟨c, hc, hgc⟩
      exact List.mem_cons_of_mem _
        (List.mem_flatMap.mpr ⟨c, hc, mem_iterAll_trans c g e hgc he⟩)
decreasing_by
  have h := List.sizeOf_lt_of_mem hc
  simp only [XElem.mk.sizeOf_spec]
  omega

/-! ## Standalone-path emission membership -/

theorem splitFold_mem_acc (iconName : String) (paths : List PathData) (x : String) :
    ∀ acc : List String × List String × Nat, x ∈ acc.1 →
      x ∈ (paths.foldl (fun acc p =>
        (acc.1 ++ (pathContribution iconName acc.2.2 p).1,
         acc.2.1 ++ (pathContribution iconName acc.2.2 p).2,
         acc.2.2 + (pathContribution iconName acc.2.2 p).2.length)) acc).1 := by
  induction paths with
  | nil => intro acc hx; exact hx
  | cons p rest ih =>
    intro acc hx
    rw [List.foldl_cons]
    exact ih _ (List.mem_append_left _ hx)

theorem generatePathCode_mem_splitFold (iconName : String) (paths : List PathData)
    (p : PathData) (hp : p ∈ paths)
    (hsmall : ¬ MAX_COMMANDS_PER_METHOD < (parsePathCommands p.d).length)
    (hne : generatePathCode p 3 ≠ "") :
    generatePathCode p 3 ∈ (splitFold iconName paths).1 := by
  obtain ⟨l1, l2, rfl⟩ := List.append_of_mem hp
  unfold splitFold
  rw [List.foldl_append, List.foldl_cons]
  refine splitFold_mem_acc iconName l2 _ _ ?_
  refine List.mem_append_right _ ?_
  unfold pathContribution
  rw [if_neg hsmall, if_pos hne]
  exact List.mem_singleton.mpr rfl

/-! ## Membership facts of duplicate-name resolution -/

theorem firstDedup_mem {l : List String} {a : String} (h : a ∈ l) : a ∈ firstDedup l := by
  have H : ∀ n (l : List String), l.length = n → ∀ a, a ∈ l → a ∈ firstDedup l := by
    intro n
    induction n using Nat.strong_induction_on with
    | _ n ih =>
      intro l hn a ha
      cases l with
      | nil => simp at ha
      | cons b rest =>
        rw [firstDedup]
        rcases List.mem_cons.mp ha with rfl | hmem
        · exact List.mem_cons_self _ _
        · by_cases hab : a = b
          · subst hab
            exact List.mem_cons_self _ _
          · refine List.mem_cons_of_mem _ ?_
            refine ih (rest.filter (fun m => m ≠ b)).length (by
              rw [← hn]
              simp only [List.length_cons]
              exact Nat.lt_succ_of_le (List.length_filter_le _ _)) _ rfl a ?_
            rw [List.mem_filter]
            exact ⟨hmem, by simp [hab]⟩
  exact H l.length l rfl a h

theorem renameDup_mem_resolve (icons : List IconEntry) (e : IconEntry) (he : e ∈ icons)
    (hdup : (icons.filter (fun i => i.name = e.name)).length ≠ 1) :
    renameDup e ∈ resolveDuplicateNames icons := by
  unfold resolveDuplicateNames
  refine List.mem_flatMap.mpr ⟨e.name, firstDedup_mem (List.mem_map_of_mem _ he), ?_⟩
  rw [if_neg hdup]
  exact List.mem_map_of_mem _ (List.mem_filter.mpr ⟨he, by simp⟩)

theorem keep_mem_resolve (icons : List IconEntry) (e : IconEntry) (he : e ∈ icons)
    (huniq : (icons.filter (fun i => i.name = e.name)).length = 1) :
    e ∈ resolveDuplicateNames icons := by
  unfold resolveDuplicateNames
  refine List.mem_flatMap.mpr ⟨e.name, firstDedup_mem (List.mem_map_of_mem _ he), ?_⟩
  rw [if_pos huniq]
  exact List.mem_filter.mpr ⟨he, by simp⟩

/-! ## Symbolic evaluation of float conversion and rounding -/

/-- `float()` of a nonempty all-digit token. -/
theorem pyFloat_digits {cs : List Char} (hne : cs ≠ []) (hd : ∀ c ∈ cs, isDigitChar c = true) :
    pyFloat? cs = some ((digitsVal cs : ℕ) : ℚ) := by
  unfold pyFloat?
  rw [pyStrip_eq_self (fun c hc => not_ws_of_digit (hd c hc))]
  have htk : ∀ (u : Char), u = '-' ∨ u = '+' → ¬(cs.take 1 = [u]) := by
    intro u hu htake
    cases cs with
    | nil => exact hne rfl
    | cons c t =>
      simp only [List.take_succ_cons, List.take_zero, List.cons.injEq, and_true] at htake
      rcases hu with rfl | rfl
      · exact not_minus_of_digit (hd c (by simp)) htake
      · exact not_plus_of_digit (hd c (by simp)) htake
  have hus : pyUnsign cs = cs := by
    unfold pyUnsign
    rw [if_neg ?_]
    intro hc
    rcases hc with hc | hc
    · exact htk '-' (Or.inl rfl) hc
    · exact htk '+' (Or.inr rfl) hc
  have hsign : pySign cs = 1 := by
    unfold pySign
    rw [if_neg (htk '-' (Or.inl rfl))]
  unfold pyFloatCore
  rw [hus, takeWhile_all hd]
  have hai : pyAfterInt cs = [] := by
    unfold pyAfterInt
    rw [takeWhile_all hd, List.drop_length]
  have hfrac : pyFracDigits cs = [] := by
    unfold pyFracDigits
    rw [hai]
  have hexp : pyExpTail cs = [] := by
    unfold pyExpTail
    rw [hai]
  rw [hfrac, hexp, hsign]
  rw [if_neg (by intro hc; exact hne hc.1)]
  unfold pyExpPart
  rw [show digitsVal ([] : List Char) = 0 from rfl]
  simp

theorem pyFloat_tok5 : pyFloat? ['5'] = some 5 := by
  rw [pyFloat_digits (by simp) (by decide), show digitsVal ['5'] = 5 from by decide]
  norm_num

theorem pyFloat_tok0 : pyFloat? ['0'] = some 0 := by
  rw [pyFloat_digits (by simp) (by decide), show digitsVal ['0'] = 0 from by decide]
  norm_num

theorem pyFloat_tok1 : pyFloat? ['1'] = some 1 := by
  rw [pyFloat_digits (by simp) (by decide), show digitsVal ['1'] = 1 from by decide]
  norm_num

theorem pyFloat_tok24 : pyFloat? ['2', '4'] = some 24 := by
  rw [pyFloat_digits (by simp) (by decide), show digitsVal ['2', '4'] = 24 from by decide]
  norm_num

theorem pyFloat_tok100 : pyFloat? ['1', '0', '0'] = some 100 := by
  rw [pyFloat_digits (by simp) (by decide), show digitsVal ['1', '0', '0'] = 100 from by decide]
  norm_num

theorem pyFloat_tok50 : pyFloat? ['5', '0'] = some 50 := by
  rw [pyFloat_digits (by simp) (by decide), show digitsVal ['5', '0'] = 50 from by decide]
  norm_num

/-- Two-decimal rounding is the identity on integers. -/
theorem round2_intCast (z : ℤ) : round2 ((z : ℤ) : ℚ) = z := by
  unfold round2 rnd2 rndHalfEven
  rw [show (100 : ℚ) * (z : ℚ) = ((100 * z : ℤ) : ℚ) from by push_cast; ring]
  rw [Int.floor_intCast]
  rw [if_pos (by norm_num)]
  rw [show (((100 * z : ℤ) : ℚ)) = 100 * (z : ℚ) from by push_cast; ring]
  exact mul_div_cancel_left₀ _ (by norm_num)

theorem round2_five : round2 (5 : ℚ) = 5 := by
  rw [show (5 : ℚ) = ((5 : ℤ) : ℚ) from by norm_num, round2_intCast]

theorem round2_one : round2 (1 : ℚ) = 1 := by
  rw [show (1 : ℚ) = ((1 : ℤ) : ℚ) from by norm_num, round2_intCast]

/-! # Claim theorems -/

/-- C2 (counterexample): reserialising a relative horizontal command and
re-parsing does not give an equivalent command: the relative flag is lost, so
the re-parsed command emits a different drawing instruction. -/
theorem C2_counterexample :
    parsePathCommands (commandsToPathString [PathCmd.hline 5 true]) =
      [PathCmd.hline 5 false] ∧
    emitCmd (PathCmd.hline 5 true) ≠ emitCmd (PathCmd.hline 5 false) := by
  constructor
  · rw [parse_serial_roundtrip]
    rw [show ([PathCmd.hline 5 true]).map normCmd =
      [PathCmd.hline (round2 5) false] from rfl]
    rw [round2_five]
  · intro h
    have hlen := congrArg String.length h
    rw [show emitCmd (PathCmd.hline 5 true) =
      "horizontalLineToRelative(" ++ String.mk (fmt0 5) ++ "f)" from rfl,
      show emitCmd (PathCmd.hline 5 false) =
      "horizontalLineTo(" ++ String.mk (fmt0 5) ++ "f)" from rfl] at hlen
    rw [String.length_append, String.length_append, String.length_append,
      String.length_append] at hlen
    rw [show ("horizontalLineToRelative(" : String).length = 25 from rfl,
      show ("horizontalLineTo(" : String).length = 17 from rfl] at hlen
    omega

/-- C2 (amended): re-parsing the reserialised text yields the original
commands with every coordinate rounded to two decimals (so within `1/200` of
the original, not within floating-point tolerance) and with the `H`/`V`
relative flag reset to absolute; the command letters are preserved in
order. -/
theorem C2_roundtrip (cmds : List PathCmd) :
    parsePathCommands (commandsToPathString cmds) = cmds.map normCmd ∧
    (parsePathCommands (commandsToPathString cmds)).map cmdType = cmds.map cmdType ∧
    (∀ q : ℚ, |round2 q - q| ≤ 1 / 200) := by
  refine ⟨parse_serial_roundtrip cmds, ?_, fun q => round2_sub_le q⟩
  rw [parse_serial_roundtrip cmds, List.map_map]
  exact List.map_congr_left (fun c _ => cmdType_normCmd c)

theorem fmt2_ne_comma (q : ℚ) : ∀ c ∈ fmt2 q, c ≠ ',' := by
  intro c hc
  rcases fmt2_mem q c hc with h | h | h
  · exact not_comma_of_digit h
  · subst h; decide
  · subst h; decide

theorem cmdTokens_no_comma (cmd : PathCmd) : ∀ w ∈ cmdTokens cmd, ∀ c ∈ w, c ≠ ',' := by
  have hletter : ∀ L : Char, L ≠ ',' → ∀ c ∈ ([L] : List Char), c ≠ ',' := by
    intro L hL c hc
    rw [List.mem_singleton] at hc
    subst hc
    exact hL
  intro w hw
  cases cmd with
  | moveTo x y =>
    simp only [cmdTokens, List.mem_cons, List.not_mem_nil, or_false] at hw
    rcases hw with rfl | rfl | rfl
    · exact hletter 'M' (by decide)
    · exact fmt2_ne_comma x
    · exact fmt2_ne_comma y
  | lineTo x y =>
    simp only [cmdTokens, List.mem_cons, List.not_mem_nil, or_false] at hw
    rcases hw with rfl | rfl | rfl
    · exact hletter 'L' (by decide)
    · exact fmt2_ne_comma x
    · exact fmt2_ne_comma y
  | hline x rel =>
    simp only [cmdTokens, List.mem_cons, List.not_mem_nil, or_false] at hw
    rcases hw with rfl | rfl
    · exact hletter 'H' (by decide)
    · exact fmt2_ne_comma x
  | vline y rel =>
    simp only [cmdTokens, List.mem_cons, List.not_mem_nil, or_false] at hw
    rcases hw with rfl | rfl
    · exact hletter 'V' (by decide)
    · exact fmt2_ne_comma y
  | curveTo x1 y1 x2 y2 x y =>
    simp only [cmdTokens, List.mem_cons, List.not_mem_nil, or_false] at hw
    rcases hw with rfl | rfl | rfl | rfl | rfl | rfl | rfl
    · exact hletter 'C' (by decide)
    · exact fmt2_ne_comma x1
    · exact fmt2_ne_comma y1
    · exact fmt2_ne_comma x2
    · exact fmt2_ne_comma y2
    · exact fmt2_ne_comma x
    · exact fmt2_ne_comma y
  | close =>
    simp only [cmdTokens, List.mem_cons, List.not_mem_nil, or_false] at hw
    rcases hw with rfl
    exact hletter 'Z' (by decide)

/-- The tokens of an authored path: one relative `h 5`, then 649 absolute
`L 1.00,1.00` commands. -/
def bigTokens : List (List Char) :=
  ['h'] :: ['5'] :: (List.replicate 649 (PathCmd.lineTo 1 1)).flatMap cmdTokens

/-- The authored 650-command path-data text. -/
def bigPathData : String := String.mk (joinSep ' ' bigTokens)

theorem bigTokens_spec : ∀ w ∈ bigTokens,
    w ≠ [] ∧ (∀ c ∈ w, isWSChar c = false) ∧
      ((∃ L, w = [L]) ∨ (∀ c ∈ w, isCmdLetter c = false)) ∧
      (∀ c ∈ w.tail, isSignChar c = false) ∧ (∀ c ∈ w, c ≠ ',') := by
  intro w hw
  rcases List.mem_cons.mp hw with rfl | hw2
  · exact ⟨by simp, by decide, Or.inl ⟨'h', rfl⟩, by decide, by decide⟩
  rcases List.mem_cons.mp hw2 with rfl | hw3
  · exact ⟨by simp, by decide, Or.inl ⟨'5', rfl⟩, by decide, by decide⟩
  rcases List.mem_flatMap.mp hw3 with ⟨cmd, _, hwc⟩
  obtain ⟨h1, h2, h3, h4⟩ := cmdTokens_spec cmd w hwc
  exact ⟨h1, h2, h3, h4, cmdTokens_no_comma cmd w hwc⟩

theorem bigPathData_parse :
    parsePathCommands bigPathData =
      PathCmd.hline 5 true :: List.replicate 649 (PathCmd.lineTo 1 1) := by
  unfold parsePathCommands
  rw [show bigPathData.data = joinSep ' ' bigTokens from rfl]
  rw [tokenize_of_tokens bigTokens bigTokens_spec]
  rw [show bigTokens = ['h'] :: ['5'] ::
    (List.replicate 649 (PathCmd.lineTo 1 1)).flatMap cmdTokens from rfl]
  rw [parseTokens_h_rel 0 0 5 _ _ pyFloat_tok5]
  rw [parseTokens_cmdTokens]
  rw [List.map_replicate]
  rw [show normCmd (PathCmd.lineTo 1 1) = PathCmd.lineTo (round2 1) (round2 1) from rfl]
  rw [round2_one]

/-- C3 (counterexample): a 650-command path whose first command is a
relative `h` is split into chunks that are reserialised and re-parsed; the
reserialisation drops the relative flag, so the concatenated instructions of
the helper methods differ from the instructions of the unsplit path — the
split rendering is not equivalent. -/
theorem C3_counterexample :
    MAX_COMMANDS_PER_METHOD < (parsePathCommands bigPathData).length ∧
    ((chunkList MAX_COMMANDS_PER_METHOD (parsePathCommands bigPathData)).map
      (fun ch => formatPathData (commandsToPathString ch) 0)).flatten ≠
      formatPathData bigPathData 0 := by
  constructor
  · rw [bigPathData_parse]
    simp only [List.length_cons, List.length_replicate, MAX_COMMANDS_PER_METHOD]
    omega
  · intro heq
    rw [split_chunks_instructions MAX_COMMANDS_PER_METHOD (by decide) _ 0] at heq
    rw [show formatPathData bigPathData 0 =
      (parsePathCommands bigPathData).map (fun c => indentStr 0 ++ emitCmd c) from rfl] at heq
    rw [bigPathData_parse] at heq
    simp only [List.map_cons] at heq
    have hhead := congrArg List.head? heq
    simp only [List.head?_cons, Option.some.injEq] at hhead
    have hlen := congrArg String.length hhead
    rw [show normCmd (PathCmd.hline 5 true) = PathCmd.hline (round2 5) false from rfl,
      round2_five] at hlen
    rw [show emitCmd (PathCmd.hline 5 false) =
      "horizontalLineTo(" ++ String.mk (fmt0 5) ++ "f)" from rfl,
      show emitCmd (PathCmd.hline 5 true) =
      "horizontalLineToRelative(" ++ String.mk (fmt0 5) ++ "f)" from rfl] at hlen
    rw [String.length_append, String.length_append, String.length_append,
      String.length_append, String.length_append, String.length_append] at hlen
    rw [show ("horizontalLineToRelative(" : String).length = 25 from rfl,
      show ("horizontalLineTo(" : String).length = 17 from rfl] at hlen
    omega

/-- C3 (amended): splitting chunks the parsed commands in order at command
boundaries into pieces of at most 300, a 650-command list giving sizes
300, 300, 50 with one helper method and one call per chunk; the concatenated
chunk instructions equal the instructions of the *rounded* original commands
(coordinates rounded to two decimals, `H`/`V` relative flags reset), not of
the original commands themselves. -/
theorem C3_chunking (cs : List PathCmd) :
    (chunkList MAX_COMMANDS_PER_METHOD cs).flatten = cs ∧
    (∀ ch ∈ chunkList MAX_COMMANDS_PER_METHOD cs, ch.length ≤ MAX_COMMANDS_PER_METHOD) ∧
    (cs.length = 650 →
      (chunkList MAX_COMMANDS_PER_METHOD cs).map List.length = [300, 300, 50]) ∧
    (∀ p iconName counter,
      (generateSplitPathMethods p cs iconName counter MAX_COMMANDS_PER_METHOD).methods.length =
        (chunkList MAX_COMMANDS_PER_METHOD cs).length ∧
      (generateSplitPathMethods p cs iconName counter MAX_COMMANDS_PER_METHOD).calls.length =
        (chunkList MAX_COMMANDS_PER_METHOD cs).length) ∧
    (∀ ind, ((chunkList MAX_COMMANDS_PER_METHOD cs).map
        (fun ch => formatPathData (commandsToPathString ch) ind)).flatten =
      (cs.map normCmd).map (fun c => indentStr ind ++ emitCmd c)) :=
  ⟨chunkList_flatten (by decide) cs, chunkList_sizes (by decide) cs,
   fun h => chunkList_650 cs h,
   fun p iconName counter =>
     ⟨by
        rw [show (generateSplitPathMethods p cs iconName counter
          MAX_COMMANDS_PER_METHOD).methods =
          (chunkList MAX_COMMANDS_PER_METHOD cs).enum.map (fun ch =>
            generatePathHelperMethod (createChunkPathData p ch.2)
              (helperName iconName counter ch.1)) from rfl]
        rw [List.length_map, List.enum_length],
      by
        rw [show (generateSplitPathMethods p cs iconName counter
          MAX_COMMANDS_PER_METHOD).calls =
          (chunkList MAX_COMMANDS_PER_METHOD cs).enum.map (fun ch =>
            "            " ++ helperName iconName counter ch.1 ++ "()") from rfl]
        rw [List.length_map, List.enum_length]⟩,
   fun ind => split_chunks_instructions _ (by decide) cs ind⟩

/-- C3 (witness): the chunk-size specification applied to a concrete
650-command list. -/
theorem C3_chunking_witness :
    (List.replicate 650 PathCmd.close).length = 650 ∧
    (chunkList MAX_COMMANDS_PER_METHOD (List.replicate 650 PathCmd.close)).map List.length =
      [300, 300, 50] := by
  refine ⟨by rw [List.length_replicate], ?_⟩
  exact (C3_chunking (List.replicate 650 PathCmd.close)).2.2.1 (by rw [List.length_replicate])

/-- C4 (counterexample): for a child whose fill is `"none"`, group emission
does not multiply the fill opacity by the group opacity: with fill opacity 1
and group opacity 1/2 the result keeps fill opacity 1, not 1 × 1/2. -/
theorem C4_counterexample :
    (applyGroupOpacityToPath
      { d := "M 0 0", fill := "none", stroke := "#FF0000", strokeWidth := 1,
        fillRule := "nonzero", opacity := 1, transform := none,
        fillOpacity := 1, strokeOpacity := 1 } (1 / 2)).fillOpacity = 1 ∧
    (1 : ℚ) ≠ 1 * (1 / 2) := by
  constructor
  · unfold applyGroupOpacityToPath
    rw [if_neg (by norm_num)]
    simp
  · norm_num

/-- C4 (amended): for group opacity < 1 each opacity channel is multiplied
by the group opacity exactly when its paint is not `"none"`, and a channel
whose paint is `"none"` is left unchanged; every other field (path data,
paints, stroke width, fill rule, own opacity, transform) is preserved, and a
group opacity ≥ 1 leaves the child untouched. -/
theorem C4_group_opacity (p : PathData) (g : ℚ) (hg : g < 1) :
    (p.fill ≠ "none" → (applyGroupOpacityToPath p g).fillOpacity = p.fillOpacity * g) ∧
    (p.fill = "none" → (applyGroupOpacityToPath p g).fillOpacity = p.fillOpacity) ∧
    (p.stroke ≠ "none" →
      (applyGroupOpacityToPath p g).strokeOpacity = p.strokeOpacity * g) ∧
    (p.stroke = "none" → (applyGroupOpacityToPath p g).strokeOpacity = p.strokeOpacity) ∧
    (applyGroupOpacityToPath p g).d = p.d ∧
    (applyGroupOpacityToPath p g).fill = p.fill ∧
    (applyGroupOpacityToPath p g).stroke = p.stroke ∧
    (applyGroupOpacityToPath p g).strokeWidth = p.strokeWidth ∧
    (applyGroupOpacityToPath p g).fillRule = p.fillRule ∧
    (applyGroupOpacityToPath p g).opacity = p.opacity ∧
    (applyGroupOpacityToPath p g).transform = p.transform ∧
    (∀ g2 : ℚ, 1 ≤ g2 → applyGroupOpacityToPath p g2 = p) := by
  have hterm : applyGroupOpacityToPath p g =
      { p with
        fillOpacity := if p.fill ≠ "none" then p.fillOpacity * g else p.fillOpacity,
        strokeOpacity := if p.stroke ≠ "none" then p.strokeOpacity * g
          else p.strokeOpacity } := by
    unfold applyGroupOpacityToPath
    rw [if_neg (not_le.mpr hg)]
  refine ⟨?_, ?_, ?_, ?_, ?_, ?_, ?_, ?_, ?_, ?_, ?_, ?_⟩
  · intro hf
    rw [hterm]
    exact if_pos hf
  · intro hf
    rw [hterm]
    exact if_neg (fun hn => hn hf)
  · intro hs
    rw [hterm]
    exact if_pos hs
  · intro hs
    rw [hterm]
    exact if_neg (fun hn => hn hs)
  · rw [hterm]
  · rw [hterm]
  · rw [hterm]
  · rw [hterm]
  · rw [hterm]
  · rw [hterm]
  · rw [hterm]
  · intro g2 hg2
    unfold applyGroupOpacityToPath
    rw [if_pos hg2]

/-- C4 (witness): the amended opacity composition at a concrete child with
a coloured fill and a `"none"` stroke, at group opacity 1/2: the fill
channel is multiplied, the stroke channel is untouched. -/
theorem C4_group_opacity_witness :
    ((1 : ℚ) / 2 < 1) ∧
    (applyGroupOpacityToPath
      { d := "M 0 0", fill := "#FF0000", stroke := "none", strokeWidth := 1,
        fillRule := "nonzero", opacity := 1, transform := none,
        fillOpacity := 1 / 2, strokeOpacity := 1 / 3 } (1 / 2)).fillOpacity =
      1 / 2 * (1 / 2) ∧
    (applyGroupOpacityToPath
      { d := "M 0 0", fill := "#FF0000", stroke := "none", strokeWidth := 1,
        fillRule := "nonzero", opacity := 1, transform := none,
        fillOpacity := 1 / 2, strokeOpacity := 1 / 3 } (1 / 2)).strokeOpacity =
      1 / 3 := by
  refine ⟨by norm_num, ?_, ?_⟩
  · exact (C4_group_opacity _ (1 / 2) (by norm_num)).1 (by decide)
  · exact (C4_group_opacity _ (1 / 2) (by norm_num)).2.2.2.1 rfl

/-- C5 (counterexample): `_normalize_color` maps `"#abc"` to `"#ABC"` (it
does not expand 3-digit hex) and returns `"bogus"` unchanged (it does not
default to black). -/
theorem C5_counterexample :
    normalizeColor "#abc" = "#ABC" ∧ "#ABC" ≠ "#AABBCC" ∧
    normalizeColor "bogus" = "bogus" ∧ "bogus" ≠ "#000000" := by
  refine ⟨by decide, by decide, by decide, by decide⟩

/-- C5 (amended): normalisation uppercases hex strings without expanding
them (`"#abc"` ↦ `"#ABC"`), converts `rgb()` triples (`"rgb(255,0,0)"` ↦
`"#FF0000"`), and returns unrecognised strings unchanged (`"bogus"` ↦
`"bogus"`); the 3-digit expansion and the black default happen later, in the
generator's colour conversion. -/
theorem C5_color_normalisation :
    normalizeColor "#abc" = "#ABC" ∧
    normalizeColor "rgb(255,0,0)" = "#FF0000" ∧
    normalizeColor "bogus" = "bogus" ∧
    convertColorToCompose "#ABC" = some "Color(0xFFAABBCC)" ∧
    convertColorToCompose "bogus" = some "Color.Black" := by
  have h255 : natHex 255 = ['F', 'F'] := by
    unfold natHex
    rw [if_neg (by norm_num)]
    rw [show Nat.digits 16 255 = [15, 15] from by norm_num]
    decide
  have h0 : natHex 0 = ['0'] := by
    unfold natHex
    rw [if_pos rfl]
  have hp255 : hexPad2 255 = "FF" := by
    unfold hexPad2
    rw [h255]
    decide
  have hp0 : hexPad2 0 = "00" := by
    unfold hexPad2
    rw [h0]
    decide
  refine ⟨by decide, ?_, by decide, by decide, by decide⟩
  have hrgb : normalizeColor "rgb(255,0,0)" =
      "#" ++ hexPad2 255 ++ hexPad2 0 ++ hexPad2 0 := by
    unfold normalizeColor
    rw [if_neg (by decide)]
    rw [show namedColorHex? (lowerStr "rgb(255,0,0)") = none from by decide]
    rw [if_neg (by decide)]
    rw [show rgbMatch? ("rgb(255,0,0)").data = some (255, 0, 0) from by decide]
  rw [hrgb, hp255, hp0]
  decide

/-- A path with a coloured stroke of width zero. -/
def strokeZeroPath : PathData :=
  { d := "M 0 0", fill := "#FF0000", stroke := "#00FF00", strokeWidth := 0,
    fillRule := "nonzero", opacity := 1, transform := none,
    fillOpacity := 1, strokeOpacity := 1 }

/-- C6 (counterexample): a path whose stroke is a colour but whose stroke
width is 0 still gets a stroke directive — the stroke directive is not
conditional on a positive width (only the `strokeLineWidth` entry is). -/
theorem C6_counterexample :
    PathParam.strokeSolid "Color(0xFF00FF00)" ∈ buildPathParams strokeZeroPath ∧
    ¬ (0 : ℚ) < strokeZeroPath.strokeWidth := by
  constructor
  · decide
  · rw [show strokeZeroPath.strokeWidth = (0 : ℚ) from rfl]
    norm_num

/-- C6 (amended): the emitted parameter list contains a fill directive iff
the fill is not `"none"` and its colour converts; the even-odd override iff
the fill rule lowercases to `"evenodd"`; a stroke directive iff the stroke
is not `"none"` and its colour converts (independently of the width); and a
stroke-width entry iff additionally the width is positive. -/
theorem C6_path_params (p : PathData) :
    ((∃ c, PathParam.fillSolid c ∈ buildPathParams p) ↔
      (p.fill ≠ "none" ∧ convertColorToComposeWithOpacity p.fill p.fillOpacity ≠ none)) ∧
    (PathParam.fillTypeEvenOdd ∈ buildPathParams p ↔ lowerStr p.fillRule = "evenodd") ∧
    ((∃ c, PathParam.strokeSolid c ∈ buildPathParams p) ↔
      (p.stroke ≠ "none" ∧ convertColorToComposeWithOpacity p.stroke p.strokeOpacity ≠ none)) ∧
    ((∃ w, PathParam.strokeLineWidth w ∈ buildPathParams p) ↔
      (p.stroke ≠ "none" ∧ convertColorToComposeWithOpacity p.stroke p.strokeOpacity ≠ none ∧
        0 < p.strokeWidth)) := by
  unfold buildPathParams
  by_cases hf : p.fill = "none" <;> by_cases hs : p.stroke = "none" <;>
    by_cases hw : 0 < p.strokeWidth <;> by_cases he : lowerStr p.fillRule = "evenodd" <;>
    rcases hfc : convertColorToComposeWithOpacity p.fill p.fillOpacity with _ | fc <;>
    rcases hsc : convertColorToComposeWithOpacity p.stroke p.strokeOpacity with _ | sc <;>
    simp [hf, hs, hw, he, hfc, hsc]

/-- C8: identifiers are grouped by exact name; singleton groups are kept
unchanged; every member of a larger group gains the title-cased immediate
parent-directory suffix, or the fixed `"Root"` suffix for a bare file; in
particular two `"Edit"` entries under `actions/` and `navigation/` become
`"EditActions"` and `"EditNavigation"`. -/
theorem C8_duplicate_names :
    resolveDuplicateNames
      [⟨"Edit", ["actions", "Edit.kt"]⟩, ⟨"Edit", ["navigation", "Edit.kt"]⟩] =
      [⟨"EditActions", ["actions", "Edit.kt"]⟩,
       ⟨"EditNavigation", ["navigation", "Edit.kt"]⟩] ∧
    (∀ icons (e : IconEntry), e ∈ icons →
      (icons.filter (fun i => i.name = e.name)).length = 1 →
        e ∈ resolveDuplicateNames icons) ∧
    (∀ icons (e : IconEntry), e ∈ icons →
      (icons.filter (fun i => i.name = e.name)).length ≠ 1 →
        renameDup e ∈ resolveDuplicateNames icons) ∧
    (∀ e : IconEntry, 1 < e.pathParts.length →
      (renameDup e).name =
        e.name ++ pyCapitalize (e.pathParts.getD (e.pathParts.length - 2) "")) ∧
    (∀ e : IconEntry, ¬ 1 < e.pathParts.length → (renameDup e).name = e.name ++ "Root") := by
  refine ⟨?_, keep_mem_resolve, renameDup_mem_resolve, ?_, ?_⟩
  · have hd : firstDedup ["Edit", "Edit"] = ["Edit"] := by
      rw [firstDedup]
      rw [show (["Edit"].filter (fun m => m ≠ "Edit")) = [] from by decide]
      rw [firstDedup]
    unfold resolveDuplicateNames
    rw [show ([(⟨"Edit", ["actions", "Edit.kt"]⟩ : IconEntry),
      ⟨"Edit", ["navigation", "Edit.kt"]⟩].map (fun i => i.name)) =
      ["Edit", "Edit"] from rfl]
    rw [hd]
    decide
  · intro e h
    unfold renameDup
    rw [if_pos h]
  · intro e h
    unfold renameDup
    rw [if_neg h]

/-- C9 (counterexample): with no `viewBox` attribute the fallback takes the
root's `width`/`height` attributes, here `100`/`50`, not the fixed
`0 0 24 24`. -/
theorem C9_counterexample :
    extractViewbox (XElem.mk "svg" [("width", "100"), ("height", "50")] none []) =
      ⟨0, 0, 100, 50⟩ ∧
    (⟨0, 0, 100, 50⟩ : ViewBox) ≠ ⟨0, 0, 24, 24⟩ := by
  constructor
  · unfold extractViewbox
    rw [show getAttr (XElem.mk "svg" [("width", "100"), ("height", "50")] none [])
      "viewBox" = none from rfl]
    rw [show getAttrD (XElem.mk "svg" [("width", "100"), ("height", "50")] none [])
      "width" "24" = "100" from rfl]
    rw [show getAttrD (XElem.mk "svg" [("width", "100"), ("height", "50")] none [])
      "height" "24" = "50" from rfl]
    unfold parseDimension
    rw [show stripUnits (pyStrip ("100").data) = ['1', '0', '0'] from rfl]
    rw [show stripUnits (pyStrip ("50").data) = ['5', '0'] from rfl]
    rw [pyFloat_tok100, pyFloat_tok50]
    rfl
  · intro h
    have := congrArg ViewBox.width h
    norm_num at this

/-- C9 (amended): an absent `viewBox` falls back to
`(0, 0, width, height)` from the root's dimension attributes (so
`0 0 24 24` only when those attributes are absent too); a present non-empty
but unparseable `viewBox` string falls back to the fixed `0 0 24 24`. -/
theorem C9_viewbox (root : XElem) :
    (getAttr root "viewBox" = none →
      extractViewbox root = ⟨0, 0, parseDimension (getAttrD root "width" "24"),
        parseDimension (getAttrD root "height" "24")⟩) ∧
    (∀ s, getAttr root "viewBox" = some s → s ≠ "" →
      ¬(∃ a b c d, (words (pyStrip s.data)).map (fun w => pyFloat? w) =
          [some a, some b, some c, some d]) →
      extractViewbox root = ⟨0, 0, 24, 24⟩) ∧
    (getAttr root "viewBox" = none → getAttr root "width" = none →
      getAttr root "height" = none → extractViewbox root = ⟨0, 0, 24, 24⟩) := by
  refine ⟨?_, ?_, ?_⟩
  · intro habs
    unfold extractViewbox
    rw [habs]
  · intro s hsome hne hbad
    unfold extractViewbox
    rw [hsome]
    show (if s ≠ "" then viewBoxFromString s
      else ⟨0, 0, parseDimension (getAttrD root "width" "24"),
        parseDimension (getAttrD root "height" "24")⟩) = ⟨0, 0, 24, 24⟩
    rw [if_pos hne]
    unfold viewBoxFromString
    split
    · rename_i a b c d heq
      exact absurd ⟨a, b, c, d, heq⟩ hbad
    · rfl
  · intro habs hw hh
    unfold extractViewbox
    rw [habs]
    show (⟨0, 0, parseDimension (getAttrD root "width" "24"),
      parseDimension (getAttrD root "height" "24")⟩ : ViewBox) = ⟨0, 0, 24, 24⟩
    unfold getAttrD
    rw [hw, hh]
    show (⟨0, 0, parseDimension "24", parseDimension "24"⟩ : ViewBox) = ⟨0, 0, 24, 24⟩
    unfold parseDimension
    rw [show stripUnits (pyStrip ("24").data) = ['2', '4'] from rfl, pyFloat_tok24]
    rfl

/-- C10: a path element that is a descendant of a group element is returned
twice by parsing — once among the document's standalone paths (the path
iteration starts at the root and sees into groups) and once among the
group's children — and consequently its drawing block is emitted both by
the standalone-path loop and inside the group block. -/
theorem C10_nested_path_duplicated (root g e : XElem) (pd : PathData) (gd : GroupData)
    (hg : g ∈ iterAll root) (he : e ∈ iterAll g) (htag : e.tag = "path")
    (hparse : parsePathElement root e = some pd)
    (hgd : parseGroupElement root g = some gd) :
    pd ∈ extractPaths root ∧
    pd ∈ gd.children ∧
    (1 ≤ gd.opacity → ∀ i : Nat, generatePathCode pd (i + 1) ∈
      gd.children.map (fun child =>
        generatePathCode (applyGroupOpacityToPath child gd.opacity) (i + 1))) ∧
    (∀ iconName, ¬ MAX_COMMANDS_PER_METHOD < (parsePathCommands pd.d).length →
      generatePathCode pd 3 ≠ "" →
      generatePathCode pd 3 ∈ (splitFold iconName (extractPaths root)).1) := by
  have hmem : e ∈ iterTag root "path" := by
    unfold iterTag
    rw [List.mem_filter]
    exact ⟨mem_iterAll_trans root g e hg he, by simp [htag]⟩
  have h1 : pd ∈ extractPaths root := by
    unfold extractPaths
    refine List.mem_append_left _ (List.mem_append_left _ ?_)
    exact List.mem_filterMap.mpr ⟨e, hmem, hparse⟩
  have h2 : pd ∈ gd.children := by
    unfold parseGroupElement at hgd
    rcases hop : pyFloat? (getAttrD g "opacity" "1").data with _ | op
    · rw [hop] at hgd
      exact Option.noConfusion hgd
    · rw [hop] at hgd
      have hv := Option.some.inj hgd
      rw [← hv]
      show pd ∈ (iterTag g "path").filterMap (parsePathElement root)
      refine List.mem_filterMap.mpr ⟨e, ?_, hparse⟩
      unfold iterTag
      rw [List.mem_filter]
      exact ⟨he, by simp [htag]⟩
  refine ⟨h1, h2, ?_, ?_⟩
  · intro hop1 i
    have hsame : generatePathCode (applyGroupOpacityToPath pd gd.opacity) (i + 1) =
        generatePathCode pd (i + 1) := by
      unfold applyGroupOpacityToPath
      rw [if_pos hop1]
    rw [← hsame]
    exact List.mem_map_of_mem _ h2
  · intro iconName hsmall hne
    exact generatePathCode_mem_splitFold iconName _ pd h1 hsmall hne

/-- A path element nested inside a group in a minimal document. -/
def pathElem : XElem := XElem.mk "path" [("d", "M 0 0")] none []

/-- The group element wrapping `pathElem`. -/
def groupElem : XElem := XElem.mk "g" [] none [pathElem]

/-- The document root holding the group. -/
def docRoot : XElem := XElem.mk "svg" [] none [groupElem]

/-- The parsed value of `pathElem`. -/
def nestedPD : PathData :=
  { d := "M 0 0", fill := "#000000", stroke := "none", strokeWidth := 0,
    fillRule := "nonzero", opacity := 1, transform := none,
    fillOpacity := 1, strokeOpacity := 1 }

/-- The parsed value of `groupElem`. -/
def nestedGD : GroupData :=
  { transform := none, opacity := 1, fill := "black", stroke := "none",
    children := [nestedPD] }

/-- C10 (witness): in the minimal document the nested path value appears
both among the standalone paths and among the group's children. -/
theorem C10_nested_path_duplicated_witness :
    nestedPD ∈ extractPaths docRoot ∧ nestedPD ∈ nestedGD.children := by
  have hg : groupElem ∈ iterAll docRoot := by
    rw [show (docRoot : XElem) = XElem.mk "svg" [] none [groupElem] from rfl, iterAll_eq]
    exact List.mem_cons_of_mem _
      (List.mem_flatMap.mpr ⟨groupElem, by simp, mem_iterAll_self _⟩)
  have he : pathElem ∈ iterAll groupElem := by
    rw [show (groupElem : XElem) = XElem.mk "g" [] none [pathElem] from rfl, iterAll_eq]
    exact List.mem_cons_of_mem _
      (List.mem_flatMap.mpr ⟨pathElem, by simp, mem_iterAll_self _⟩)
  have hparse : parsePathElement docRoot pathElem = some nestedPD := by
    unfold parsePathElement
    rw [show getAttr pathElem "d" = some "M 0 0" from rfl]
    show (if ("M 0 0" : String) = "" then none
      else match extractStyleAttributes docRoot pathElem with
        | some (fill, stroke, sw, op) =>
          some (mkPathData (pyStripStr "M 0 0") fill stroke sw
            (getAttrD pathElem "fill-rule" "nonzero") op (getAttr pathElem "transform"))
        | none => none) = some nestedPD
    rw [if_neg (by decide)]
    have hsty : extractStyleAttributes docRoot pathElem =
        some ("black", "none", 0, 1) := by
      unfold extractStyleAttributes
      rw [show (getAttrD pathElem "stroke-width" "0").data = ['0'] from rfl,
        show (getAttrD pathElem "opacity" "1").data = ['1'] from rfl,
        pyFloat_tok0, pyFloat_tok1]
      rw [show getAttr pathElem "style" = none from rfl]
      unfold styleAfterClass
      rw [show getAttr pathElem "class" = none from rfl]
      rfl
    rw [hsty]
    rfl
  have hit : iterTag groupElem "path" = [pathElem] := by
    unfold iterTag
    rw [show iterAll groupElem = groupElem :: (iterAll pathElem ++ []) from by
      rw [show (groupElem : XElem) = XElem.mk "g" [] none [pathElem] from rfl, iterAll_eq]
      rfl]
    rw [show iterAll pathElem = [pathElem] from by
      rw [show (pathElem : XElem) = XElem.mk "path" [("d", "M 0 0")] none [] from rfl,
        iterAll_eq]
      rfl]
    rfl
  have hgd : parseGroupElement docRoot groupElem = some nestedGD := by
    unfold parseGroupElement
    rw [show (getAttrD groupElem "opacity" "1").data = ['1'] from rfl, pyFloat_tok1]
    rw [hit]
    rw [show [pathElem].filterMap (parsePathElement docRoot) = [nestedPD] from by
      rw [List.filterMap_cons, hparse]
      rfl]
    rfl
  obtain ⟨w1, w2, _, _⟩ := C10_nested_path_duplicated docRoot groupElem pathElem
    nestedPD nestedGD hg he rfl hparse hgd
  exact ⟨w1, w2⟩
